import Mathlib

/-!
Verification of the pyArtifact deck-code codec
(`src/pyartifact/deck_encoding/decode.py` and `encode.py`).

The Python code is shallowly embedded: bytes are `Nat` (with explicit
range checks where `bytearray` enforces them), byte buffers are
`List Nat`, Python exceptions are the `PyErr` error type threaded through
`Except`, and the stateful `Decoder`/`Encoder` classes become explicit
state passing.  Loops whose Python counterparts terminate by running a
cursor off the data are given an explicit fuel argument equal to the
bound the Python loop respects, so that every definition is executable.
-/

/-- The exceptions the Python code can raise.  The first three are the
library's own typed exceptions (`exceptions.py`); the remaining four are
builtin Python exceptions that the codec does not catch. -/
inductive PyErr where
  | invalidDeckString (msg : String)
  | deckDecodeException (msg : String)
  | deckEncodeException (msg : String)
  | binasciiError
  | indexError
  | unicodeDecodeError
  | valueError
  deriving Repr, DecidableEq

/-- `binary[i]` on a bytearray: `IndexError` when out of range. -/
def pyGet (l : List Nat) (i : Nat) : Except PyErr Nat :=
  match l.get? i with
  | some x => .ok x
  | none => .error .indexError

/-- `bytearray.append`: only byte values 0..255 are accepted. -/
def pyAppend (l : List Nat) (b : Nat) : Except PyErr (List Nat) :=
  if b < 256 then .ok (l ++ [b]) else .error .valueError

/-- A sequence of `bytearray.append` calls, one per list element. -/
def pyExtend (l : List Nat) : List Nat → Except PyErr (List Nat)
  | [] => .ok l
  | b :: bs =>
    match pyAppend l b with
    | .error e => .error e
    | .ok l2 => pyExtend l2 bs

/-- The effective stop position of a Python slice `l[start:stop]` whose
`stop` may be a negative int (counted from the end, then clamped). -/
def pySliceStop (len : Nat) (stop : Int) : Nat :=
  if stop < 0 then (stop + len).toNat else min stop.toNat len

/-- Python slice `l[start:stop]` with a nonnegative `start` and an
arbitrary integer `stop`. -/
def pySlice (l : List Nat) (start : Nat) (stop : Int) : List Nat :=
  (l.take (pySliceStop l.length stop)).drop start

/-- Python slice `l[-n:]` for `n ≥ 1`: the last `n` elements (all of `l`
when `n ≥ len`). -/
def pyTakeLast (l : List Nat) (n : Nat) : List Nat :=
  l.drop (l.length - n)

/-- Python `str.replace(old, new)` for single-character arguments. -/
def pyReplaceChar (old new : Char) (s : List Char) : List Char :=
  s.map fun c => if c = old then new else c

/-- Python `str.lstrip(chars)`: removes every leading character that is a
member of `chars` (a character set, not a literal string to remove). -/
def pyLstrip (s : List Char) (chars : List Char) : List Char :=
  s.dropWhile (· ∈ chars)

/-! ### Base64 (`base64.b64encode` / `base64.b64decode`) -/

/-- Character `n` (0..63) of the standard base64 alphabet. -/
def b64CharOf (n : Nat) : Char :=
  if n < 26 then Char.ofNat (65 + n)
  else if n < 52 then Char.ofNat (97 + (n - 26))
  else if n < 62 then Char.ofNat (48 + (n - 52))
  else if n = 62 then '+' else '/'

/-- Index of a character in the standard base64 alphabet, if any. -/
def b64IndexOf (c : Char) : Option Nat :=
  if 'A' ≤ c ∧ c ≤ 'Z' then some (c.toNat - 65)
  else if 'a' ≤ c ∧ c ≤ 'z' then some (c.toNat - 97 + 26)
  else if '0' ≤ c ∧ c ≤ '9' then some (c.toNat - 48 + 52)
  else if c = '+' then some 62
  else if c = '/' then some 63
  else none

/-- `base64.b64encode` of a byte sequence (all entries < 256), as the
list of characters of its ASCII result, including `=` padding. -/
def b64encodeList : List Nat → List Char
  | [] => []
  | [a] => [b64CharOf (a >>> 2), b64CharOf ((a &&& 3) <<< 4), '=', '=']
  | [a, b] => [b64CharOf (a >>> 2), b64CharOf (((a &&& 3) <<< 4) ||| (b >>> 4)),
      b64CharOf ((b &&& 15) <<< 2), '=']
  | a :: b :: c :: rest =>
      b64CharOf (a >>> 2) :: b64CharOf (((a &&& 3) <<< 4) ||| (b >>> 4)) ::
      b64CharOf (((b &&& 15) <<< 2) ||| (c >>> 6)) :: b64CharOf (c &&& 63) ::
      b64encodeList rest

/-- Prepend a byte to the result of a base64 decode in progress. -/
def b64Cons (b : Nat) (r : Except PyErr (List Nat)) : Except PyErr (List Nat) :=
  r.map (b :: ·)

/-- The loop of CPython's `binascii.a2b_base64` in non-strict mode
(which is what `base64.b64decode` with `validate=False` calls): invalid
characters are skipped, data characters are accumulated six bits at a
time into `leftchar` at quad position `quadPos` (and reset the `pads`
counter), `=` at quad position ≥ 2 counts towards `pads` and ends the
decode once the quad is full, and a leftover partial quad at the end of
input is a `binascii.Error`. -/
def a2bLoop : List Char → Nat → Nat → Nat → Except PyErr (List Nat)
  | [], quadPos, _, _ => if quadPos = 0 then .ok [] else .error .binasciiError
  | c :: rest, quadPos, leftchar, pads =>
    if c = '=' then
      if 2 ≤ quadPos then
        if 4 ≤ quadPos + (pads + 1) then .ok []
        else a2bLoop rest quadPos leftchar (pads + 1)
      else a2bLoop rest quadPos leftchar pads
    else
      match b64IndexOf c with
      | none => a2bLoop rest quadPos leftchar pads
      | some v =>
        let acc := (leftchar <<< 6) ||| v
        match quadPos with
        | 0 => a2bLoop rest 1 acc 0
        | 1 => b64Cons (acc >>> 4) (a2bLoop rest 2 (acc &&& 15) 0)
        | 2 => b64Cons (acc >>> 2) (a2bLoop rest 3 (acc &&& 3) 0)
        | _ => b64Cons acc (a2bLoop rest 0 0 0)

/-- `base64.b64decode` (default non-validating mode) on a `str`
argument: `_bytes_from_decode_data` first encodes the string as ASCII
and raises a plain `ValueError` on any non-ASCII character; only then
does the `binascii` loop run. -/
def pyB64decode (s : List Char) : Except PyErr (List Nat) :=
  if ∀ c ∈ s, c.toNat < 128 then a2bLoop s 0 0 0
  else .error .valueError

/-! ### UTF-8 (`str.encode()` / `bytes.decode()`) -/

/-- UTF-8 encoding of a single character. -/
def utf8EncodeChar (c : Char) : List Nat :=
  let n := c.toNat
  if n < 128 then [n]
  else if n < 2048 then [192 + n / 64, 128 + n % 64]
  else if n < 65536 then [224 + n / 4096, 128 + n / 64 % 64, 128 + n % 64]
  else [240 + n / 262144, 128 + n / 4096 % 64, 128 + n / 64 % 64, 128 + n % 64]

/-- Python `str.encode()`: the UTF-8 bytes of a string. -/
def strEncodeUtf8 (s : List Char) : List Nat :=
  (s.map utf8EncodeChar).flatten

/-- Whether `b` is a UTF-8 continuation byte. -/
def utf8Cont (b : Nat) : Bool := 128 ≤ b ∧ b < 192

/-- The scanning loop of strict UTF-8 decoding.  `fuel` is the length
of the byte list at the top-level call; each step consumes at least one
byte, so the zero-fuel/cons case is unreachable. -/
def bytesDecodeUtf8Go : Nat → List Nat → Except PyErr (List Char)
  | _, [] => .ok []
  | 0, _ :: _ => .error .unicodeDecodeError
  | fuel + 1, b :: rest =>
    if b < 128 then (bytesDecodeUtf8Go fuel rest).map (Char.ofNat b :: ·)
    else if 194 ≤ b ∧ b < 224 then
      match rest with
      | b2 :: rest2 =>
        if utf8Cont b2 then
          (bytesDecodeUtf8Go fuel rest2).map
            (Char.ofNat ((b - 192) * 64 + (b2 - 128)) :: ·)
        else .error .unicodeDecodeError
      | _ => .error .unicodeDecodeError
    else if 224 ≤ b ∧ b < 240 then
      match rest with
      | b2 :: b3 :: rest3 =>
        if utf8Cont b2 ∧ utf8Cont b3 then
          let n := (b - 224) * 4096 + (b2 - 128) * 64 + (b3 - 128)
          if 2048 ≤ n ∧ ¬(55296 ≤ n ∧ n < 57344) then
            (bytesDecodeUtf8Go fuel rest3).map (Char.ofNat n :: ·)
          else .error .unicodeDecodeError
        else .error .unicodeDecodeError
      | _ => .error .unicodeDecodeError
    else if 240 ≤ b ∧ b < 245 then
      match rest with
      | b2 :: b3 :: b4 :: rest4 =>
        if utf8Cont b2 ∧ utf8Cont b3 ∧ utf8Cont b4 then
          let n := (b - 240) * 262144 + (b2 - 128) * 4096 +
            (b3 - 128) * 64 + (b4 - 128)
          if 65536 ≤ n ∧ n < 1114112 then
            (bytesDecodeUtf8Go fuel rest4).map (Char.ofNat n :: ·)
          else .error .unicodeDecodeError
        else .error .unicodeDecodeError
      | _ => .error .unicodeDecodeError
    else .error .unicodeDecodeError

/-- Python `bytes.decode()`: strict UTF-8 decoding, rejecting invalid
start bytes, truncated sequences, overlong forms, surrogates and values
above U+10FFFF with `UnicodeDecodeError`. -/
def bytesDecodeUtf8 (l : List Nat) : Except PyErr (List Char) :=
  bytesDecodeUtf8Go l.length l

/-! ### `re.sub('<[^<]+?>', '', s)`

At a `<`, the lazy pattern matches the shortest span `<x…y>` whose
interior is nonempty and free of `<`; a position that cannot start a
match is kept and scanning resumes one character later.  The outer loop
consumes at least one character per step, so fuel `s.length` suffices. -/

/-- After an opening `<`: try to find the matching `>` (at least one
non-`<` character in between, none of them `<`); returns the remainder
of the string after the match, if any. -/
def tagTail : List Char → Option (List Char)
  | [] => none
  | c :: rest =>
    if c = '<' then none
    else tagScan rest
where
  tagScan : List Char → Option (List Char)
    | [] => none
    | d :: rest2 =>
      if d = '>' then some rest2
      else if d = '<' then none
      else tagScan rest2

/-- Fuelled scanner for `re.sub('<[^<]+?>', '', s)`. -/
def reSubTagsGo : Nat → List Char → List Char
  | 0, s => s
  | _ + 1, [] => []
  | fuel + 1, c :: rest =>
    if c = '<' then
      match tagTail rest with
      | some after => reSubTagsGo fuel after
      | none => c :: reSubTagsGo fuel rest
    else c :: reSubTagsGo fuel rest

/-- `re.sub('<[^<]+?>', '', s)`: remove every HTML-like tag. -/
def reSubTags (s : List Char) : List Char :=
  reSubTagsGo s.length s

/-- String-level tag stripping, for stating claims. -/
def pyStripTags (s : String) : String :=
  ⟨reSubTags s.data⟩

/-! ### Deck data model (`deck_encoding/types.py`) -/

/-- `HeroDecodedType`: a hero entry of `DeckContents`. -/
structure HeroEntry where
  id : Nat
  turn : Nat
  deriving Repr, DecidableEq

/-- `CardDecodedType`: a card entry of `DeckContents`. -/
structure CardEntry where
  id : Nat
  count : Nat
  deriving Repr, DecidableEq

/-- `DeckContents`: name, heroes and cards.  A missing `name` key is
represented by the empty string (the encoder's `.get('name', '')`). -/
structure DeckContents where
  name : String
  heroes : List HeroEntry
  cards : List CardEntry
  deriving Repr, DecidableEq

/-! ### Decoder (`deck_encoding/decode.py`) -/

namespace Decoder

/-- `_read_bits_chunk`: contributes the low `numbBits` bits of `chunk`
at position `currShift` of `outBits`; the second component is the
continuation flag (bit `numbBits` of `chunk`). -/
def readBitsChunk (chunk numbBits currShift outBits : Nat) : Nat × Bool :=
  let continueBit := 1 <<< numbBits
  let newBits := chunk &&& (continueBit - 1)
  (outBits ||| (newBits <<< currShift), chunk &&& continueBit ≠ 0)

/-- The `while True` loop of `_read_var_encoded`: reads 7-bit
continuation bytes.  `fuel` is `binary.length - index`, the number of
bytes left in the buffer; running out of it is exactly the Python
`IndexError` from `self._binary[index]`. -/
def readVarLoop (binary : List Nat) (maxIndex : Int) :
    Nat → Nat → Nat → Nat → Except PyErr (Nat × Nat)
  | fuel, deltaShift, value, index =>
    if (index : Int) > maxIndex then
      .error (.deckDecodeException "Couldn't read a variable from the string.")
    else
      match fuel with
      | 0 => .error .indexError
      | fuel + 1 =>
        match binary.get? index with
        | none => .error .indexError
        | some nextByte =>
          let r := readBitsChunk nextByte 7 deltaShift value
          if r.2 then readVarLoop binary maxIndex fuel (deltaShift + 7) r.1 (index + 1)
          else .ok (r.1, index + 1)

/-- `_read_var_encoded`: reads a variable-length encoded integer whose
first `baseBits` bits come from `baseValue`, starting at `index`, with
every byte read required to be at an index ≤ `maxIndex`. -/
def readVarEncoded (binary : List Nat) (baseValue baseBits index : Nat)
    (maxIndex : Int) : Except PyErr (Nat × Nat) :=
  let r := readBitsChunk baseValue baseBits 0 0
  if baseBits = 0 ∨ r.2 then
    readVarLoop binary maxIndex (binary.length - index) (0 + baseBits) r.1 index
  else
    .ok (r.1, index)

/-- `_read_serialized_card`: reads one serialized hero/card entry at
`currentIndex`, returning `(count_or_turn, card_id, new_index)`; the
caller takes `card_id` as the new `_previous_card_base`. -/
def readSerializedCard (binary : List Nat) (readUntilIndex : Int)
    (previousCardBase currentIndex : Nat) : Except PyErr (Nat × Nat × Nat) :=
  if (currentIndex : Int) > readUntilIndex then
    .error (.deckDecodeException "Couldn't read a serialized card")
  else
    match pyGet binary currentIndex with
    | .error e => .error e
    | .ok header =>
      match readVarEncoded binary header 5 (currentIndex + 1) readUntilIndex with
      | .error e => .error e
      | .ok (cardIdDelta, index1) =>
        if header >>> 6 = 3 then
          match readVarEncoded binary 0 0 index1 readUntilIndex with
          | .error e => .error e
          | .ok (count, index2) =>
            .ok (count, previousCardBase + cardIdDelta, index2)
        else
          .ok (header >>> 6 + 1, previousCardBase + cardIdDelta, index1)

/-- The hero loop of `_parse_deck`: `heroesCount` serialized entries. -/
def readHeroesLoop (binary : List Nat) (totalCardBytes : Int) :
    Nat → Nat → Nat → Except PyErr (List HeroEntry × Nat)
  | 0, _, currentIndex => .ok ([], currentIndex)
  | n + 1, previousCardBase, currentIndex =>
    match readSerializedCard binary totalCardBytes previousCardBase currentIndex with
    | .error e => .error e
    | .ok (heroTurn, heroCardId, index1) =>
      match readHeroesLoop binary totalCardBytes n heroCardId index1 with
      | .error e => .error e
      | .ok (rest, finalIndex) => .ok (⟨heroCardId, heroTurn⟩ :: rest, finalIndex)

/-- The card `while` loop of `_parse_deck`: entries are read while the
cursor is before `totalCardBytes`, each with `read_until_index` equal to
the full buffer length.  Every iteration consumes at least one byte, so
fuel `binary.length + 1` suffices; the fuel-exhaustion branch is
unreachable for the fuel the caller passes. -/
def readCardsLoop (binary : List Nat) (totalCardBytes : Int) :
    Nat → Nat → Nat → Except PyErr (List CardEntry × Nat)
  | fuel, previousCardBase, currentIndex =>
    if (currentIndex : Int) < totalCardBytes then
      match fuel with
      | 0 => .error (.deckDecodeException "Couldn't read a serialized card")
      | fuel + 1 =>
        match readSerializedCard binary (binary.length : Int)
            previousCardBase currentIndex with
        | .error e => .error e
        | .ok (cardCount, cardId, nextIndex) =>
          match readCardsLoop binary totalCardBytes fuel cardId nextIndex with
          | .error e => .error e
          | .ok (rest, finalIndex) => .ok (⟨cardId, cardCount⟩ :: rest, finalIndex)
    else .ok ([], currentIndex)

/-- The string handed to the base64 substitutions and to base64 decoding
by `_decode_string`: the deck code after `lstrip('ADC')` (note:
`str.lstrip` removes *all* leading characters drawn from the set
`{'A','D','C'}`, not just the three-character prefix). -/
def strippedCode (deckCode : String) : List Char :=
  pyLstrip deckCode.data ['A', 'D', 'C']

/-- `_decode_string`: prefix check, url-safe → standard base64
substitution, base64 decode, and the emptiness check. -/
def decodeString (deckCode : String) : Except PyErr (List Nat) :=
  if ¬ "ADC".data.isPrefixOf deckCode.data then
    .error (.invalidDeckString "The provided deck string doesn't start with a known prefix")
  else
    match pyB64decode
        (pyReplaceChar '_' '=' (pyReplaceChar '-' '/' (strippedCode deckCode))) with
    | .error e => .error e
    | .ok decoded =>
      if decoded = [] then
        .error (.invalidDeckString "No binary data could be decoded from the string")
      else .ok decoded

/-- `_get_version_and_heroes`: returns `(version_and_heroes, version)`. -/
def getVersionAndHeroes (binary : List Nat) : Except PyErr (Nat × Nat) :=
  match pyGet binary 0 with
  | .error e => .error e
  | .ok versionAndHeroes =>
    if versionAndHeroes >>> 4 ∉ [1, 2] then
      .error (.invalidDeckString "Deck string has incompatible version")
    else .ok (versionAndHeroes, versionAndHeroes >>> 4)

/-- `_get_lengths_and_calc_checksum`: returns
`(name_length, card_bytes_start_index, total_card_bytes)` after
verifying the checksum.  Version 1 reads byte 2 into a checksum value
that is immediately overwritten (kept here for its possible
`IndexError`). -/
def getLengthsAndChecksum (binary : List Nat) (version : Nat) :
    Except PyErr (Nat × Nat × Int) :=
  match pyGet binary 2 with
  | .error e => .error e
  | .ok byteTwo =>
    let nameLength := if version = 1 then 0 else byteTwo
    let cardBytesStartIndex := if version = 1 then 2 else 3
    let totalCardBytes : Int := (binary.length : Int) - (nameLength : Int)
    let computedChecksum := (pySlice binary cardBytesStartIndex totalCardBytes).sum
    match pyGet binary 1 with
    | .error e => .error e
    | .ok storedChecksum =>
      if storedChecksum ≠ (computedChecksum &&& 255) then
        .error (.invalidDeckString "Checksum doesn't check out")
      else .ok (nameLength, cardBytesStartIndex, totalCardBytes)

/-- `_parse_deck`: hero count, hero entries, card entries, name. -/
def parseDeck (binary : List Nat) (versionAndHeroes : Nat)
    (cardBytesStartIndex : Nat) (totalCardBytes : Int) (nameLength : Nat) :
    Except PyErr DeckContents :=
  match readVarEncoded binary versionAndHeroes 3 cardBytesStartIndex totalCardBytes with
  | .error e => .error e
  | .ok (heroesCount, index0) =>
    match readHeroesLoop binary totalCardBytes heroesCount 0 index0 with
    | .error e => .error e
    | .ok (heroes, index1) =>
      match readCardsLoop binary totalCardBytes (binary.length + 1) 0 index1 with
      | .error e => .error e
      | .ok (cards, _) =>
        match (if nameLength ≠ 0 then
            (bytesDecodeUtf8 (pyTakeLast binary nameLength)).map reSubTags
          else .ok []) with
        | .error e => .error e
        | .ok name => .ok ⟨⟨name⟩, heroes, cards⟩

/-- `deck_contents` on the binary payload: the pipeline after the
base64 stage. -/
def decodeBinary (binary : List Nat) : Except PyErr DeckContents :=
  match getVersionAndHeroes binary with
  | .error e => .error e
  | .ok (versionAndHeroes, version) =>
    match getLengthsAndChecksum binary version with
    | .error e => .error e
    | .ok (nameLength, cardBytesStartIndex, totalCardBytes) =>
      parseDeck binary versionAndHeroes cardBytesStartIndex totalCardBytes nameLength

end Decoder

/-- `decode_deck_string`: deck code string to `DeckContents`. -/
def decodeDeckString (deckCode : String) : Except PyErr DeckContents :=
  match Decoder.decodeString deckCode with
  | .error e => .error e
  | .ok binary => Decoder.decodeBinary binary

/-! ### Encoder (`deck_encoding/encode.py`) -/

namespace Encoder

/-- `Encoder.header_size`. -/
def headerSize : Nat := 3

/-- `_extract_n_bits`: the low `numBits` bits of `value`, with the
continuation bit set when more bits remain. -/
def extractNBits (value numBits : Nat) : Nat :=
  let limitBit := 1 <<< numBits
  let result := value &&& (limitBit - 1)
  if limitBit ≤ value then result ||| limitBit else result

/-- The `while value > 0` loop of `_add_remaining_bits_from_number`,
returning the bytes it appends.  All iterations shrink `value`, so fuel
equal to the initial `value` suffices. -/
def addRemainingLoop : Nat → Nat → List Nat
  | 0, _ => []
  | fuel + 1, value =>
    if value = 0 then []
    else extractNBits value 7 :: addRemainingLoop fuel (value >>> 7)

/-- `_add_remaining_bits_from_number`: the bytes appended for the bits
of `value` above the `alreadyWrittenBits` low ones. -/
def addRemainingBitsFromNumber (value alreadyWrittenBits : Nat) : List Nat :=
  addRemainingLoop (value >>> alreadyWrittenBits) (value >>> alreadyWrittenBits)

/-- `_add_card`: serializes one hero/card entry onto `binary`.
`countOrTurn - 1` is Nat subtraction; it agrees with Python for every
`countOrTurn ≥ 1`, which holds on all paths the theorems below take
(Python would instead build a negative byte and fail on `append` for
`countOrTurn = 0`). -/
def addCard (binary : List Nat) (countOrTurn value : Nat) :
    Except PyErr (List Nat) :=
  let bytesStart := binary.length
  let firstByteMaxCount := 3
  let extendedCount := firstByteMaxCount ≤ countOrTurn - 1
  let firstByteCount := if extendedCount then firstByteMaxCount else countOrTurn - 1
  let firstByte := (firstByteCount <<< 6) ||| extractNBits value 5
  match pyAppend binary firstByte with
  | .error e => .error e
  | .ok binary1 =>
    match pyExtend binary1 (addRemainingBitsFromNumber value 5) with
    | .error e => .error e
    | .ok binary2 =>
      match (if extendedCount then
          pyExtend binary2 (addRemainingBitsFromNumber countOrTurn 0)
        else .ok binary2) with
      | .error e => .error e
      | .ok binary3 =>
        if binary3.length - bytesStart > 11 then
          .error (.deckEncodeException "Something went horribly wrong")
        else .ok binary3

/-- The serialization loops of `_encode` over the sorted hero and card
lists, as pairs `(count_or_turn, id)`.  `id - previousCardId` is Nat
subtraction; it agrees with Python's int subtraction because the encoder
only runs it on id-sorted lists. -/
def addEntries (binary : List Nat) :
    List (Nat × Nat) → Nat → Except PyErr (List Nat)
  | [], _ => .ok binary
  | (countOrTurn, id) :: rest, previousCardId =>
    match addCard binary countOrTurn (id - previousCardId) with
    | .error e => .error e
    | .ok binary1 => addEntries binary1 rest id

/-- The sanitized `self.name` computed by `Encoder.__init__`: the name
is truncated to 63 characters first and tag-stripped second. -/
def encoderName (deckContents : DeckContents) : List Char :=
  reSubTags (deckContents.name.data.take 63)

/-- `Encoder._encode`: the binary payload (version byte, checksum byte,
name length, hero-count overflow, hero entries, card entries, name
bytes, with the checksum patched in at index 1). -/
def encodeBinary (deckContents : DeckContents) (version : Nat) :
    Except PyErr (List Nat) :=
  let heroes := List.insertionSort (fun a b => a.id ≤ b.id) deckContents.heroes
  let cards := List.insertionSort (fun a b => a.id ≤ b.id) deckContents.cards
  let name := encoderName deckContents
  let versionByte := (version <<< 4) ||| extractNBits heroes.length 3
  match pyAppend [] versionByte with
  | .error e => .error e
  | .ok binary0 =>
    let checksumIndex := binary0.length
    match pyAppend binary0 0 with
    | .error e => .error e
    | .ok binary1 =>
      match pyAppend binary1 name.length with
      | .error e => .error e
      | .ok binary2 =>
        match pyExtend binary2 (addRemainingBitsFromNumber heroes.length 3) with
        | .error e => .error e
        | .ok binary3 =>
          match addEntries binary3 (heroes.map fun h => (h.turn, h.id)) 0 with
          | .error e => .error e
          | .ok binary4 =>
            match addEntries binary4 (cards.map fun cd => (cd.count, cd.id)) 0 with
            | .error e => .error e
            | .ok binary5 =>
              let nameStartIndex := binary5.length
              match pyExtend binary5 (strEncodeUtf8 name) with
              | .error e => .error e
              | .ok binary6 =>
                let checksum :=
                  (pySlice binary6 headerSize (nameStartIndex : Int)).sum &&& 255
                .ok (binary6.set checksumIndex checksum)

/-- `Encoder.deck_code`'s string stage: base64, `ADC` prefix, and the
url-safe character substitutions (`/` → `-`, `=` → `_`). -/
def deckStringOfBinary (binary : List Nat) : String :=
  ⟨pyReplaceChar '=' '_' (pyReplaceChar '/' '-' ("ADC".data ++ b64encodeList binary))⟩

end Encoder

/-- `encode_deck`: deck contents to deck code string. -/
def encodeDeck (deckContents : DeckContents) (version : Nat) :
    Except PyErr String :=
  (Encoder.encodeBinary deckContents version).map Encoder.deckStringOfBinary

/-- Equality of `Except` values is decidable when it is on both sides. -/
instance exceptDecEq {ε α : Type} [DecidableEq ε] [DecidableEq α] :
    DecidableEq (Except ε α)
  | .ok a, .ok b =>
    if h : a = b then .isTrue (by rw [h])
    else .isFalse (by intro hh; cases hh; exact h rfl)
  | .error a, .error b =>
    if h : a = b then .isTrue (by rw [h])
    else .isFalse (by intro hh; cases hh; exact h rfl)
  | .ok _, .error _ => .isFalse (by intro hh; cases hh)
  | .error _, .ok _ => .isFalse (by intro hh; cases hh)

/-! ### Varint correctness -/

/-- Merging disjoint bit ranges: `a ||| (b <<< s)` is `a + b·2^s` when
`a` fits below bit `s`. -/
theorem lor_shiftLeft_eq_add {a : Nat} (b s : Nat) (h : a < 2 ^ s) :
    a ||| (b <<< s) = a + b * 2 ^ s := by
  have h1 : b <<< s = 2 ^ s * b := by rw [Nat.shiftLeft_eq]; ring
  have h2 := (Nat.mul_add_lt_is_or h b).symm
  rw [h1, Nat.lor_comm, h2]; ring

/-- The canonical 7-bit chunk sequence of a value: what
`_add_remaining_bits_from_number(v, 0)` appends. -/
def chunks7 (v : Nat) : List Nat :=
  Encoder.addRemainingLoop v v

theorem shiftRight7_lt {v : Nat} (h : 1 ≤ v) : v >>> 7 < v := by
  rw [Nat.shiftRight_eq_div_pow]
  exact Nat.div_lt_self h (by norm_num)

theorem addRemainingLoop_congr :
    ∀ f1 f2 v : Nat, v ≤ f1 → v ≤ f2 →
      Encoder.addRemainingLoop f1 v = Encoder.addRemainingLoop f2 v := by
  intro f1
  induction f1 with
  | zero =>
    intro f2 v h1 _
    interval_cases v
    cases f2 <;> simp [Encoder.addRemainingLoop]
  | succ f ih =>
    intro f2 v h1 h2
    rcases Nat.eq_zero_or_pos v with hv | hv
    · subst hv
      cases f2 <;> simp [Encoder.addRemainingLoop]
    · obtain ⟨f2', rfl⟩ : ∃ k, f2 = k + 1 := ⟨f2 - 1, by omega⟩
      have hlt : v >>> 7 < v := shiftRight7_lt hv
      simp only [Encoder.addRemainingLoop, if_neg (Nat.pos_iff_ne_zero.mp hv)]
      rw [ih f2' (v >>> 7) (by omega) (by omega)]

/-- The unfolding equation of `chunks7`. -/
theorem chunks7_eq (v : Nat) :
    chunks7 v = if v = 0 then [] else Encoder.extractNBits v 7 :: chunks7 (v >>> 7) := by
  rcases Nat.eq_zero_or_pos v with hv | hv
  · subst hv; simp [chunks7, Encoder.addRemainingLoop]
  · obtain ⟨f, rfl⟩ : ∃ k, v = k + 1 := ⟨v - 1, by omega⟩
    have hlt : (f + 1) >>> 7 < f + 1 := shiftRight7_lt (by omega)
    rw [if_neg (by omega : ¬ f + 1 = 0)]
    show Encoder.addRemainingLoop (f + 1) (f + 1) =
      Encoder.extractNBits (f + 1) 7 ::
        Encoder.addRemainingLoop ((f + 1) >>> 7) ((f + 1) >>> 7)
    simp only [Encoder.addRemainingLoop, if_neg (by omega : ¬ f + 1 = 0)]
    exact congrArg _
      (addRemainingLoop_congr f ((f + 1) >>> 7) ((f + 1) >>> 7) (by omega) le_rfl)

/-- `_add_remaining_bits_from_number` emits the chunk sequence of the
value shifted down by the already-written bits. -/
theorem addRemainingBitsFromNumber_eq (v b : Nat) :
    Encoder.addRemainingBitsFromNumber v b = chunks7 (v >>> b) := rfl

theorem chunks7_zero : chunks7 0 = [] := by rw [chunks7_eq]; rfl

theorem chunks7_pos {v : Nat} (h : 1 ≤ v) :
    chunks7 v = Encoder.extractNBits v 7 :: chunks7 (v >>> 7) := by
  rw [chunks7_eq, if_neg (by omega)]

/-- Low bits of `_extract_n_bits`. -/
theorem extractNBits_and_mask (v n : Nat) :
    Encoder.extractNBits v n &&& (2 ^ n - 1) = v % 2 ^ n := by
  unfold Encoder.extractNBits
  simp only [Nat.one_shiftLeft]
  have hp : 2 ^ n &&& 2 ^ n - 1 = 0 := by
    rw [Nat.and_pow_two_sub_one_eq_mod, Nat.mod_self]
  split
  · rw [Nat.and_distrib_right, hp, Nat.or_zero,
      Nat.and_pow_two_sub_one_eq_mod, Nat.and_pow_two_sub_one_eq_mod]
    exact Nat.mod_mod_of_dvd v dvd_rfl
  · rw [Nat.and_pow_two_sub_one_eq_mod, Nat.and_pow_two_sub_one_eq_mod]
    exact Nat.mod_mod_of_dvd v dvd_rfl

/-- Continuation bit of `_extract_n_bits`. -/
theorem extractNBits_and_flag (v n : Nat) :
    Encoder.extractNBits v n &&& 2 ^ n = if 2 ^ n ≤ v then 2 ^ n else 0 := by
  unfold Encoder.extractNBits
  simp only [Nat.one_shiftLeft]
  have hmod : v &&& 2 ^ n - 1 &&& 2 ^ n = 0 := by
    rw [Nat.and_pow_two_sub_one_eq_mod, Nat.and_two_pow,
      Nat.testBit_lt_two_pow (Nat.mod_lt _ (Nat.two_pow_pos n))]
    simp
  split <;> rename_i h
  · simp only [if_pos h, Nat.and_distrib_right, hmod, Nat.and_self]
    simp
  · simp only [if_neg h, hmod]

/-- Index into the middle section of a three-part append. -/
theorem get?_middle {α : Type} (pre mid post : List α) (j : Nat)
    (hj : j < mid.length) :
    (pre ++ mid ++ post).get? (pre.length + j) = mid.get? j := by
  rw [List.append_assoc, List.get?_append_right (by omega),
    Nat.add_sub_cancel_left]
  exact List.get?_append hj

/-- One unfolding of the continuation-byte loop when the guard passes
and the byte exists. -/
theorem readVarLoop_step (binary : List Nat) (max : Int)
    (f shift value index b : Nat)
    (hguard : ¬ ((index : Int) > max)) (hget : binary.get? index = some b) :
    Decoder.readVarLoop binary max (f + 1) shift value index =
      if (Decoder.readBitsChunk b 7 shift value).2 then
        Decoder.readVarLoop binary max f (shift + 7)
          (Decoder.readBitsChunk b 7 shift value).1 (index + 1)
      else .ok ((Decoder.readBitsChunk b 7 shift value).1, index + 1) := by
  rw [Decoder.readVarLoop]
  rw [if_neg hguard]
  show (match binary.get? index with
    | none => Except.error PyErr.indexError
    | some nextByte =>
      let r := Decoder.readBitsChunk nextByte 7 shift value
      if r.2 then Decoder.readVarLoop binary max f (shift + 7) r.1 (index + 1)
      else .ok (r.1, index + 1)) = _
  rw [hget]

/-- The value accumulated by one chunk read. -/
theorem readBitsChunk_extract7_fst (w shift value : Nat) (hval : value < 2 ^ shift) :
    (Decoder.readBitsChunk (Encoder.extractNBits w 7) 7 shift value).1 =
      value + w % 128 * 2 ^ shift := by
  unfold Decoder.readBitsChunk
  simp only [Nat.one_shiftLeft]
  rw [extractNBits_and_mask]
  rw [lor_shiftLeft_eq_add _ _ hval]
  norm_num

/-- The continuation flag of one chunk read. -/
theorem readBitsChunk_extract7_snd (w shift value : Nat) :
    (Decoder.readBitsChunk (Encoder.extractNBits w 7) 7 shift value).2 =
      decide (128 ≤ w) := by
  unfold Decoder.readBitsChunk
  simp only [Nat.one_shiftLeft]
  rw [extractNBits_and_flag]
  rcases le_or_lt (2 ^ 7) w with h | h
  · rw [if_pos h]
    simp only [decide_eq_true_eq] at *
    norm_num at h ⊢
    omega
  · rw [if_neg (by omega)]
    norm_num at h ⊢
    omega

/-- The continuation-byte loop of `_read_var_encoded` reads back exactly
the chunk sequence of `w ≥ 1`, laid out at `index`, never touching a
byte past the last chunk, and accumulates `w` above bit `shift`. -/
theorem readVarLoop_ok (binary : List Nat) (max : Int) :
    ∀ w, 1 ≤ w → ∀ (shift value index fuel : Nat) (pre post : List Nat),
      binary = pre ++ chunks7 w ++ post → index = pre.length →
      value < 2 ^ shift →
      ((index : Int) + (chunks7 w).length - 1 ≤ max) →
      (chunks7 w).length ≤ fuel →
      Decoder.readVarLoop binary max fuel shift value index =
        .ok (value + w * 2 ^ shift, index + (chunks7 w).length) := by
  intro w
  induction w using Nat.strong_induction_on with
  | _ w ih =>
    intro hw shift value index fuel pre post hbin hidx hval hmax hfuel
    have hch : chunks7 w = Encoder.extractNBits w 7 :: chunks7 (w >>> 7) :=
      chunks7_pos hw
    have hlen : (chunks7 w).length = (chunks7 (w >>> 7)).length + 1 := by
      rw [hch]; simp
    have hguard : ¬ ((index : Int) > max) := by
      rw [hlen] at hmax; push_cast at hmax ⊢; omega
    obtain ⟨f, rfl⟩ : ∃ f, fuel = f + 1 := ⟨fuel - 1, by omega⟩
    have hget : binary.get? index = some (Encoder.extractNBits w 7) := by
      rw [hbin, hidx, hch]
      have h0 := get?_middle pre
        (Encoder.extractNBits w 7 :: chunks7 (w >>> 7)) post 0 (by simp)
      simpa using h0
    rw [readVarLoop_step binary max f shift value index _ hguard hget,
      readBitsChunk_extract7_fst w shift value hval,
      readBitsChunk_extract7_snd w shift value]
    rcases lt_or_le w 128 with hsmall | hbig
    · rw [if_neg (by simp; omega)]
      have hz : w >>> 7 = 0 := by
        rw [Nat.shiftRight_eq_div_pow]; norm_num; omega
      rw [hz, chunks7_zero] at hlen
      rw [Nat.mod_eq_of_lt hsmall, hlen]
      simp
    · rw [if_pos (by simp; omega)]
      have hw' : 1 ≤ w >>> 7 := by
        rw [Nat.shiftRight_eq_div_pow]; norm_num
        exact Nat.div_pos (by omega) (by norm_num)
      have hbin' : binary = (pre ++ [Encoder.extractNBits w 7]) ++ chunks7 (w >>> 7) ++ post := by
        rw [hbin, hch]; simp
      have hidx' : index + 1 = (pre ++ [Encoder.extractNBits w 7]).length := by
        simp [hidx]
      have hval' : value + w % 128 * 2 ^ shift < 2 ^ (shift + 7) := by
        have h1 : w % 128 < 128 := Nat.mod_lt _ (by norm_num)
        have h2 : 2 ^ (shift + 7) = 2 ^ shift * 128 := by rw [pow_add]; norm_num
        have h3 : w % 128 * 2 ^ shift + 2 ^ shift ≤ 2 ^ shift * 128 := by
          have := Nat.two_pow_pos shift
          nlinarith
        omega
      have hmax' : ((index + 1 : Nat) : Int) + (chunks7 (w >>> 7)).length - 1 ≤ max := by
        rw [hlen] at hmax; push_cast at hmax ⊢; omega
      have hfuel' : (chunks7 (w >>> 7)).length ≤ f := by omega
      rw [ih (w >>> 7) (shiftRight7_lt hw) hw' (shift + 7)
        (value + w % 128 * 2 ^ shift) (index + 1) f
        (pre ++ [Encoder.extractNBits w 7]) post hbin' hidx' hval' hmax' hfuel']
      have harith : value + w % 128 * 2 ^ shift + w >>> 7 * 2 ^ (shift + 7) =
          value + w * 2 ^ shift := by
        rw [Nat.shiftRight_eq_div_pow]
        norm_num
        have h2 : 2 ^ (shift + 7) = 2 ^ shift * 128 := by rw [pow_add]; norm_num
        rw [h2]
        obtain ⟨a, b, ha, hb, hwab⟩ :
            ∃ a b, a = w % 128 ∧ b = w / 128 ∧ w = a + 128 * b :=
          ⟨_, _, rfl, rfl, by omega⟩
        rw [← ha, ← hb]
        conv_rhs => rw [hwab]
        ring
      rw [harith, hlen]
      norm_num
      omega

/-- `_read_var_encoded` correctness, generalized over the seed byte:
any `s` whose low `b` bits are those of `v` and whose continuation bit
is set exactly when `v` overflows them reads back `v` from `v`'s chunk
sequence laid out at `index`. -/
theorem readVarEncoded_ok (binary pre post : List Nat) (max : Int)
    (s b v index : Nat)
    (hlow : s &&& (2 ^ b - 1) = v % 2 ^ b)
    (hflag : (s &&& 2 ^ b ≠ 0) ↔ (2 ^ b ≤ v))
    (hb0 : b = 0 → 1 ≤ v)
    (hbin : binary = pre ++ chunks7 (v >>> b) ++ post)
    (hidx : index = pre.length)
    (hmax : chunks7 (v >>> b) = [] ∨
      ((index : Int) + (chunks7 (v >>> b)).length - 1 ≤ max)) :
    Decoder.readVarEncoded binary s b index max =
      .ok (v, index + (chunks7 (v >>> b)).length) := by
  have hr1 : (Decoder.readBitsChunk s b 0 0).1 = v % 2 ^ b := by
    unfold Decoder.readBitsChunk
    simp [Nat.one_shiftLeft, hlow]
  have hr2 : (Decoder.readBitsChunk s b 0 0).2 = decide (2 ^ b ≤ v) := by
    unfold Decoder.readBitsChunk
    simp only [Nat.one_shiftLeft]
    exact decide_eq_decide.mpr hflag
  have hfuel : (chunks7 (v >>> b)).length ≤ binary.length - index := by
    rw [hbin, hidx]; simp
  unfold Decoder.readVarEncoded
  simp only [hr1, hr2]
  rcases Nat.eq_zero_or_pos b with hb | hbpos
  · subst hb
    have hv1 : 1 ≤ v := hb0 rfl
    have hsh : v >>> 0 = v := Nat.shiftRight_zero
    rw [if_pos (Or.inl rfl)]
    have hmax' : ((index : Int) + (chunks7 (v >>> 0)).length - 1 ≤ max) := by
      rcases hmax with h | h
      · rw [hsh] at h
        rw [chunks7_pos hv1] at h
        cases h
      · exact h
    rw [hsh] at hmax' ⊢
    have hloop := readVarLoop_ok binary max v hv1 0 (v % 2 ^ 0) index
      (binary.length - index) pre post (by rw [hbin, hsh]) hidx
      (by simp [Nat.mod_one]) hmax' (by rw [← hsh]; exact hfuel)
    simp only [Nat.zero_add]
    rw [hloop]
    simp [Nat.mod_one]
  · rcases le_or_lt (2 ^ b) v with hge | hlt
    · rw [if_pos (Or.inr (by simp [hge]))]
      have hw1 : 1 ≤ v >>> b := by
        rw [Nat.shiftRight_eq_div_pow]
        exact Nat.one_le_div_iff (Nat.two_pow_pos b) |>.mpr hge
      have hmax' : ((index : Int) + (chunks7 (v >>> b)).length - 1 ≤ max) := by
        rcases hmax with h | h
        · rw [chunks7_pos hw1] at h; cases h
        · exact h
      have hvmod : v % 2 ^ b < 2 ^ (0 + b) := by
        simpa using Nat.mod_lt _ (Nat.two_pow_pos b)
      rw [readVarLoop_ok binary max (v >>> b) hw1 (0 + b) (v % 2 ^ b) index
        (binary.length - index) pre post hbin hidx hvmod
        (by simpa using hmax') hfuel]
      have : v % 2 ^ b + v >>> b * 2 ^ (0 + b) = v := by
        rw [Nat.shiftRight_eq_div_pow]
        simp only [Nat.zero_add]
        rw [Nat.add_comm, Nat.mul_comm (v / 2 ^ b) (2 ^ b)]
        exact Nat.div_add_mod v (2 ^ b)
      rw [this]
    · have hz : v >>> b = 0 := by
        rw [Nat.shiftRight_eq_div_pow]
        exact Nat.div_eq_of_lt hlt
      rw [if_neg]
      · rw [Nat.mod_eq_of_lt hlt, hz, chunks7_zero]
        simp
      · simp only [decide_eq_true_eq]
        push_neg
        exact ⟨by omega, by omega⟩

/-- **C4**: the varint writer and reader are exact inverses: for any
value `v` and base-bit count `b` used by the codec (0, 3, 5 or 7; with
`v ≥ 1` when `b = 0`), reading with seed chunk `_extract_n_bits(v, b)`
and the bytes appended by `_add_remaining_bits_from_number(v, b)` laid
out at the cursor yields `v` and the cursor just past the last written
byte. -/
theorem claim4_varint_writer_reader_inverse
    (v b index : Nat) (binary pre post : List Nat) (maxIndex : Int)
    (hb : b = 0 ∨ b = 3 ∨ b = 5 ∨ b = 7)
    (hv0 : b = 0 → 1 ≤ v)
    (hbin : binary = pre ++ Encoder.addRemainingBitsFromNumber v b ++ post)
    (hidx : index = pre.length)
    (hmax : Encoder.addRemainingBitsFromNumber v b = [] ∨
      (index : Int) + (Encoder.addRemainingBitsFromNumber v b).length - 1 ≤ maxIndex) :
    Decoder.readVarEncoded binary (Encoder.extractNBits v b) b index maxIndex =
      .ok (v, index + (Encoder.addRemainingBitsFromNumber v b).length) := by
  rw [addRemainingBitsFromNumber_eq] at hbin hmax ⊢
  refine readVarEncoded_ok binary pre post maxIndex _ b v index
    (extractNBits_and_mask v b) ?_ hv0 hbin hidx hmax
  rw [extractNBits_and_flag]
  constructor
  · intro h
    by_contra hc
    rw [if_neg hc] at h
    exact h rfl
  · intro h
    rw [if_pos h]
    exact Nat.pos_iff_ne_zero.mp (Nat.two_pow_pos b)

/-- Witness for C4 at `v = 300`, `b = 3`. -/
theorem claim4_witness :
    Decoder.readVarEncoded (Encoder.addRemainingBitsFromNumber 300 3)
      (Encoder.extractNBits 300 3) 3 0 0 = .ok (300, 1) := by
  have h := claim4_varint_writer_reader_inverse 300 3 0
    (Encoder.addRemainingBitsFromNumber 300 3) [] [] 0
    (Or.inr (Or.inl rfl)) (by decide) (by simp) rfl (by right; decide)
  simpa using h

/-- **C3** (code bug): `_decode_string` uses `lstrip('ADC')`, which
removes every leading `A`, `D` or `C`, not just the three-character
prefix: on `"ADCAx"` the string handed to the base64 substitutions is
`"x"`, not the `"Ax"` the claim requires; the prefix check itself does
reject any string not starting with `"ADC"`. -/
theorem claim3_lstrip_bug :
    Decoder.strippedCode "ADCAx" = ['x'] ∧
    "ADCAx".data.drop 3 = ['A', 'x'] ∧
    decodeDeckString "AXCADC" =
      .error (.invalidDeckString
        "The provided deck string doesn't start with a known prefix") := by
  decide

/-- The deck the example vector of the test suite decodes to. -/
def gbExampleDeck : DeckContents :=
  ⟨"Green/Black Example",
   [⟨4005, 2⟩, ⟨10014, 1⟩, ⟨10017, 3⟩, ⟨10026, 1⟩, ⟨10047, 1⟩],
   [⟨3000, 2⟩, ⟨3001, 1⟩, ⟨10091, 3⟩, ⟨10102, 3⟩, ⟨10128, 3⟩, ⟨10165, 3⟩,
    ⟨10168, 3⟩, ⟨10169, 3⟩, ⟨10185, 3⟩, ⟨10223, 1⟩, ⟨10234, 3⟩, ⟨10260, 1⟩,
    ⟨10263, 1⟩, ⟨10322, 3⟩, ⟨10354, 3⟩]⟩

set_option maxRecDepth 10000 in
/-- **C2**: the concrete example vector decodes to a deck named
`"Green/Black Example"` with exactly 5 heroes, and re-encoding that deck
at version 2 reproduces the input string byte for byte. -/
theorem claim2_concrete_vector :
    decodeDeckString
        "ADCJWkTZX05uwGDCRV4XQGy3QGLmqUBg4GQJgGLGgO7AaABR3JlZW4vQmxhY2sgRXhhbXBsZQ__"
      = .ok gbExampleDeck ∧
    gbExampleDeck.name = "Green/Black Example" ∧
    gbExampleDeck.heroes.length = 5 ∧
    encodeDeck gbExampleDeck 2 =
      .ok "ADCJWkTZX05uwGDCRV4XQGy3QGLmqUBg4GQJgGLGgO7AaABR3JlZW4vQmxhY2sgRXhhbXBsZQ__" := by
  decide

/-- **C10 counterexample**: `encode_deck` with version 3 (≠ 2) returns a
deck-code string instead of raising an encode error. -/
theorem claim10_counterexample :
    encodeDeck ⟨"", [], []⟩ 3 = .ok "ADCMAAA" := by decide

/-- **C10 amended**: `encode_deck` performs no version validation at
all: for every version 0–15 it succeeds, placing the version in the high
nibble of byte 0.  (Only versions ≥ 16 fail, with a byte-range
`ValueError` from `bytearray.append`, not a deck-encode error.) -/
theorem claim10_amended (version : Nat) (hversion : version ≤ 15) :
    ∃ s, encodeDeck ⟨"", [], []⟩ version = .ok s ∧
      Encoder.encodeBinary ⟨"", [], []⟩ version = .ok [version <<< 4, 0, 0] := by
  interval_cases version <;> exact ⟨_, rfl, rfl⟩

/-- Witness for C10 at version 3. -/
theorem claim10_witness :
    ∃ s, encodeDeck ⟨"", [], []⟩ 3 = .ok s ∧
      Encoder.encodeBinary ⟨"", [], []⟩ 3 = .ok [3 <<< 4, 0, 0] :=
  claim10_amended 3 (by decide)

/-- The substitution C9 claims (from the spec): `+` → `-`, `=` → `_`. -/
def claimedUrlSafe (c : Char) : Char :=
  if c = '+' then '-' else if c = '=' then '_' else c

/-- The substitution the code performs: `/` → `-`, `=` → `_`. -/
def codeUrlSafe (c : Char) : Char :=
  if c = '/' then '-' else if c = '=' then '_' else c

/-- **C9 counterexample**: a deck whose payload base64-encodes with a
`/` character.  The encoder replaces the `/` by `-`, while the claim
says only `+` and `=` are substituted, so the claimed output (which
keeps the `/`) differs from the actual output. -/
theorem claim9_counterexample :
    Encoder.encodeBinary ⟨"", [], [⟨63, 4⟩]⟩ 2 = .ok [32, 4, 0, 255, 1, 4] ∧
    encodeDeck ⟨"", [], [⟨63, 4⟩]⟩ 2 = .ok "ADCIAQA-wEE" ∧
    "ADCIAQA-wEE" ≠
      ⟨'A' :: 'D' :: 'C' :: (b64encodeList [32, 4, 0, 255, 1, 4]).map claimedUrlSafe⟩ := by
  decide

theorem urlSafeChar_eq (c : Char) :
    (if (if c = '/' then '-' else c) = '=' then '_' else if c = '/' then '-' else c) =
      codeUrlSafe c := by
  unfold codeUrlSafe
  by_cases h1 : c = '/'
  · subst h1; decide
  · by_cases h2 : c = '='
    · subst h2; decide
    · simp [h1, h2]

/-- **C9 amended**: every string `encode_deck` produces is the literal
prefix `"ADC"` followed by the standard base64 text of the payload with
every `/` replaced by `-` and every `=` by `_` (not `+` by `-`), and no
other character substituted. -/
theorem claim9_amended (deckContents : DeckContents) (version : Nat) (s : String)
    (h : encodeDeck deckContents version = .ok s) :
    ∃ binary, Encoder.encodeBinary deckContents version = .ok binary ∧
      s = ⟨'A' :: 'D' :: 'C' :: (b64encodeList binary).map codeUrlSafe⟩ := by
  unfold encodeDeck at h
  cases hb : Encoder.encodeBinary deckContents version with
  | error e => rw [hb] at h; cases h
  | ok binary =>
    rw [hb] at h
    refine ⟨binary, rfl, ?_⟩
    have hs : s = Encoder.deckStringOfBinary binary := by
      simpa [Except.map] using h.symm
    rw [hs]
    unfold Encoder.deckStringOfBinary pyReplaceChar
    congr 1
    rw [List.map_map, List.map_append]
    have hadc :
        List.map ((fun c => if c = '=' then '_' else c) ∘
          fun c => if c = '/' then '-' else c) "ADC".data = ['A', 'D', 'C'] := by
      decide
    rw [hadc]
    simp only [List.cons_append, List.nil_append]
    refine congrArg _ (congrArg _ (congrArg _ ?_))
    refine List.map_congr_left fun c _ => ?_
    simp only [Function.comp_apply]
    exact urlSafeChar_eq c

/-- Witness for C9 on the empty deck. -/
theorem claim9_witness :
    ∃ binary, Encoder.encodeBinary ⟨"", [], []⟩ 2 = .ok binary ∧
      "ADCIAAA" = ⟨'A' :: 'D' :: 'C' :: (b64encodeList binary).map codeUrlSafe⟩ :=
  claim9_amended ⟨"", [], []⟩ 2 "ADCIAAA" (by decide)

/-- A successful continuation-byte loop advances the cursor and never
reads a byte at an index beyond `maxIndex`. -/
theorem readVarLoop_le (binary : List Nat) (maxIndex : Int) :
    ∀ (fuel deltaShift value index v i' : Nat),
      Decoder.readVarLoop binary maxIndex fuel deltaShift value index = .ok (v, i') →
      index < i' ∧ (i' : Int) ≤ maxIndex + 1 := by
  intro fuel
  induction fuel with
  | zero =>
    intro deltaShift value index v i' h
    rw [Decoder.readVarLoop] at h
    by_cases hg : ((index : Int) > maxIndex)
    · rw [if_pos hg] at h; cases h
    · rw [if_neg hg] at h; cases h
  | succ f ih =>
    intro deltaShift value index v i' h
    rw [Decoder.readVarLoop] at h
    by_cases hg : ((index : Int) > maxIndex)
    · rw [if_pos hg] at h; cases h
    · rw [if_neg hg] at h
      cases hget : binary.get? index with
      | none => rw [hget] at h; cases h
      | some b =>
        rw [hget] at h
        dsimp only [] at h
        by_cases hf : (Decoder.readBitsChunk b 7 deltaShift value).2 = true
        · rw [if_pos hf] at h
          have := ih _ _ _ _ _ h
          constructor
          · omega
          · exact this.2
        · rw [if_neg hf] at h
          cases h
          constructor
          · omega
          · omega

/-- `_read_var_encoded`'s unfolded form. -/
theorem readVarEncoded_def (binary : List Nat) (bv bb i : Nat) (maxIndex : Int) :
    Decoder.readVarEncoded binary bv bb i maxIndex =
      if bb = 0 ∨ (Decoder.readBitsChunk bv bb 0 0).2 then
        Decoder.readVarLoop binary maxIndex (binary.length - i) (0 + bb)
          (Decoder.readBitsChunk bv bb 0 0).1 i
      else .ok ((Decoder.readBitsChunk bv bb 0 0).1, i) := rfl

/-- A successful `_read_var_encoded` either consumes nothing or ends at
most one byte past `maxIndex`. -/
theorem readVarEncoded_le (binary : List Nat) (maxIndex : Int)
    (baseValue baseBits index v i' : Nat)
    (h : Decoder.readVarEncoded binary baseValue baseBits index maxIndex = .ok (v, i')) :
    i' = index ∨ (index < i' ∧ (i' : Int) ≤ maxIndex + 1) := by
  rw [readVarEncoded_def] at h
  by_cases hc : (baseBits = 0 ∨ (Decoder.readBitsChunk baseValue baseBits 0 0).2 = true)
  · rw [if_pos hc] at h
    exact Or.inr (readVarLoop_le binary maxIndex _ _ _ _ _ _ h)
  · rw [if_neg hc] at h
    cases h
    exact Or.inl rfl

/-- A successful `_read_serialized_card` starts at or before
`readUntilIndex`, inside the buffer, advances the cursor, and ends at
most one byte past `readUntilIndex`. -/
theorem readSerializedCard_le (binary : List Nat) (readUntilIndex : Int)
    (prev cur cnt id cur' : Nat)
    (h : Decoder.readSerializedCard binary readUntilIndex prev cur = .ok (cnt, id, cur')) :
    (cur : Int) ≤ readUntilIndex ∧ cur < binary.length ∧ cur < cur' ∧
      (cur' : Int) ≤ readUntilIndex + 1 := by
  unfold Decoder.readSerializedCard at h
  by_cases hg : ((cur : Int) > readUntilIndex)
  · rw [if_pos hg] at h; cases h
  · rw [if_neg hg] at h
    cases hget : pyGet binary cur with
    | error e => rw [hget] at h; cases h
    | ok header =>
      rw [hget] at h
      dsimp only [] at h
      have hcurlen : cur < binary.length := by
        unfold pyGet at hget
        cases hg2 : binary.get? cur with
        | none => rw [hg2] at hget; cases hget
        | some b =>
          have := List.get?_eq_some.mp hg2
          exact this.1
      cases hvar : Decoder.readVarEncoded binary header 5 (cur + 1) readUntilIndex with
      | error e => rw [hvar] at h; cases h
      | ok pr =>
        obtain ⟨delta, i1⟩ := pr
        rw [hvar] at h
        dsimp only [] at h
        have h1 := readVarEncoded_le binary readUntilIndex header 5 (cur + 1) delta i1 hvar
        by_cases hext : header >>> 6 = 3
        · rw [if_pos hext] at h
          cases hvar2 : Decoder.readVarEncoded binary 0 0 i1 readUntilIndex with
          | error e => rw [hvar2] at h; cases h
          | ok pr2 =>
            obtain ⟨count, i2⟩ := pr2
            rw [hvar2] at h
            dsimp only [] at h
            cases h
            rw [readVarEncoded_def] at hvar2
            rw [if_pos (Or.inl rfl)] at hvar2
            have h2 := readVarLoop_le binary readUntilIndex _ _ _ _ _ _ hvar2
            refine ⟨by omega, hcurlen, by omega, by omega⟩
        · rw [if_neg hext] at h
          cases h
          refine ⟨by omega, hcurlen, by omega, by omega⟩

/-- **C5 amended**: a successful varint read consumes no byte at an
index strictly beyond its `maxIndex` (its final cursor is at most
`maxIndex + 1`), and a successful serialized-entry read consumes no byte
strictly beyond its `readUntilIndex` — but that limit is
`totalCardBytes` only for the hero stage; the card stage passes the full
payload length (`decode.py` line 71), so card entries may consume the
byte exactly at the card-region end and bytes of the trailing name. -/
theorem claim5_amended_read_bounds :
    (∀ (binary : List Nat) (maxIndex : Int) (baseValue baseBits index v i' : Nat),
      Decoder.readVarEncoded binary baseValue baseBits index maxIndex = .ok (v, i') →
      i' = index ∨ (index < i' ∧ (i' : Int) ≤ maxIndex + 1)) ∧
    (∀ (binary : List Nat) (readUntilIndex : Int) (prev cur cnt id cur' : Nat),
      Decoder.readSerializedCard binary readUntilIndex prev cur = .ok (cnt, id, cur') →
      (cur : Int) ≤ readUntilIndex ∧ cur < binary.length ∧ cur < cur' ∧
        (cur' : Int) ≤ readUntilIndex + 1) :=
  ⟨readVarEncoded_le, readSerializedCard_le⟩

/-- Witness for C5 on a one-byte entry. -/
theorem claim5_witness :
    ((0 : Nat) : Int) ≤ (0 : Int) ∧ 0 < [(0 : Nat)].length ∧ 0 < 1 ∧
      ((1 : Nat) : Int) ≤ (0 : Int) + 1 :=
  claim5_amended_read_bounds.2 [0] 0 0 0 1 0 1 (by decide)

/-- **C5 counterexample**: two payloads that differ *only* in the single
trailing name byte (the card region is `[3, 4)`: version 2, name length
1, `totalCardBytes = 4`) both decode successfully — no
`DeckDecodeException` — yet yield *different card lists*, because the
card-entry varint consumed the name byte at index 4 ≥ 4. -/
theorem claim5_counterexample :
    Decoder.getLengthsAndChecksum [32, 32, 1, 32, 1] 2 = .ok (1, 3, 4) ∧
    Decoder.getLengthsAndChecksum [32, 32, 1, 32, 2] 2 = .ok (1, 3, 4) ∧
    Decoder.decodeBinary [32, 32, 1, 32, 1] = .ok ⟨"\x01", [], [⟨32, 1⟩]⟩ ∧
    Decoder.decodeBinary [32, 32, 1, 32, 2] = .ok ⟨"\x02", [], [⟨64, 1⟩]⟩ ∧
    decodeDeckString "ADCICABIAE_" = .ok ⟨"\x01", [], [⟨32, 1⟩]⟩ ∧
    decodeDeckString "ADCICABIAI_" = .ok ⟨"\x02", [], [⟨64, 1⟩]⟩ := by
  decide

/-! ### Error kinds reachable from `decode_deck_string` -/

/-- The error kinds a decode can produce: the library's two decode-side
typed exceptions plus the three builtin Python exceptions the decoder
does not catch.  Excludes the encoder's `DeckEncodeException` and the
`ValueError` of `bytearray.append`. -/
def isDecodeErrKind : PyErr → Bool
  | .deckEncodeException _ => false
  | .valueError => false
  | _ => true

theorem pyGet_err {l : List Nat} {i : Nat} {e : PyErr}
    (h : pyGet l i = .error e) : e = .indexError := by
  unfold pyGet at h
  cases hg : l.get? i with
  | none => rw [hg] at h; cases h; rfl
  | some x => rw [hg] at h; cases h

theorem b64Cons_err {b : Nat} {r : Except PyErr (List Nat)} {e : PyErr}
    (h : b64Cons b r = .error e) : r = .error e := by
  cases r with
  | error e2 => exact h
  | ok l => exact absurd h (by simp [b64Cons, Except.map])

theorem a2bLoop_err (s : List Char) :
    ∀ qp lc pads e, a2bLoop s qp lc pads = .error e → e = .binasciiError := by
  induction s with
  | nil =>
    intro qp lc pads e h
    rw [a2bLoop] at h
    by_cases hq : qp = 0
    · rw [if_pos hq] at h; cases h
    · rw [if_neg hq] at h; cases h; rfl
  | cons c rest ih =>
    intro qp lc pads e h
    rw [a2bLoop] at h
    by_cases hc : c = '='
    · rw [if_pos hc] at h
      by_cases h2 : 2 ≤ qp
      · rw [if_pos h2] at h
        by_cases h4 : 4 ≤ qp + (pads + 1)
        · rw [if_pos h4] at h; cases h
        · rw [if_neg h4] at h; exact ih _ _ _ _ h
      · rw [if_neg h2] at h; exact ih _ _ _ _ h
    · rw [if_neg hc] at h
      cases hidx : b64IndexOf c with
      | none => rw [hidx] at h; exact ih _ _ _ _ h
      | some v =>
        rw [hidx] at h
        dsimp only [] at h
        match qp with
        | 0 => exact ih _ _ _ _ h
        | 1 => exact ih _ _ _ _ (b64Cons_err h)
        | 2 => exact ih _ _ _ _ (b64Cons_err h)
        | n + 3 => exact ih _ _ _ _ (b64Cons_err h)


/-- One-step unfolding of the UTF-8 scanning loop. -/
theorem bytesDecodeUtf8Go_succ (fuel b : Nat) (rest : List Nat) :
    bytesDecodeUtf8Go (fuel + 1) (b :: rest) =
      (if b < 128 then (bytesDecodeUtf8Go fuel rest).map (Char.ofNat b :: ·)
      else if 194 ≤ b ∧ b < 224 then
        match rest with
        | b2 :: rest2 =>
          if utf8Cont b2 then
            (bytesDecodeUtf8Go fuel rest2).map
              (Char.ofNat ((b - 192) * 64 + (b2 - 128)) :: ·)
          else .error .unicodeDecodeError
        | _ => .error .unicodeDecodeError
      else if 224 ≤ b ∧ b < 240 then
        match rest with
        | b2 :: b3 :: rest3 =>
          if utf8Cont b2 ∧ utf8Cont b3 then
            let n := (b - 224) * 4096 + (b2 - 128) * 64 + (b3 - 128)
            if 2048 ≤ n ∧ ¬(55296 ≤ n ∧ n < 57344) then
              (bytesDecodeUtf8Go fuel rest3).map (Char.ofNat n :: ·)
            else .error .unicodeDecodeError
          else .error .unicodeDecodeError
        | _ => .error .unicodeDecodeError
      else if 240 ≤ b ∧ b < 245 then
        match rest with
        | b2 :: b3 :: b4 :: rest4 =>
          if utf8Cont b2 ∧ utf8Cont b3 ∧ utf8Cont b4 then
            let n := (b - 240) * 262144 + (b2 - 128) * 4096 +
              (b3 - 128) * 64 + (b4 - 128)
            if 65536 ≤ n ∧ n < 1114112 then
              (bytesDecodeUtf8Go fuel rest4).map (Char.ofNat n :: ·)
            else .error .unicodeDecodeError
          else .error .unicodeDecodeError
        | _ => .error .unicodeDecodeError
      else .error .unicodeDecodeError) := rfl

theorem exceptMap_err {α β : Type} {f : α → β} {r : Except PyErr α} {e : PyErr}
    (h : r.map f = .error e) : r = .error e := by
  cases r with
  | error e2 =>
    have hr : Except.map f (Except.error e2 : Except PyErr α) =
        (Except.error e2 : Except PyErr β) := rfl
    rw [hr] at h
    cases h
    rfl
  | ok x =>
    have hr : Except.map f (Except.ok x : Except PyErr α) =
        (Except.ok (f x) : Except PyErr β) := rfl
    rw [hr] at h
    cases h

/-- Every error the UTF-8 scanning loop can produce is a
`UnicodeDecodeError`. -/
theorem bytesDecodeUtf8Go_err :
    ∀ (n : Nat) (l : List Nat) (e : PyErr),
      bytesDecodeUtf8Go n l = .error e → e = .unicodeDecodeError := by
  intro n
  induction n with
  | zero =>
    intro l e h
    cases l with
    | nil => cases h
    | cons b rest => cases h; rfl
  | succ n ih =>
    intro l e h
    cases l with
    | nil => cases h
    | cons b rest =>
      rw [bytesDecodeUtf8Go_succ] at h
      by_cases h1 : b < 128
      · rw [if_pos h1] at h
        exact ih rest e (exceptMap_err h)
      · rw [if_neg h1] at h
        by_cases h2 : 194 ≤ b ∧ b < 224
        · rw [if_pos h2] at h
          cases rest with
          | nil => cases h; rfl
          | cons b2 rest2 =>
            dsimp only [] at h
            by_cases hc : utf8Cont b2 = true
            · rw [if_pos hc] at h
              exact ih rest2 e (exceptMap_err h)
            · rw [if_neg hc] at h; cases h; rfl
        · rw [if_neg h2] at h
          by_cases h3 : 224 ≤ b ∧ b < 240
          · rw [if_pos h3] at h
            cases rest with
            | nil => cases h; rfl
            | cons b2 r2 =>
              cases r2 with
              | nil => cases h; rfl
              | cons b3 rest3 =>
                dsimp only [] at h
                by_cases hc : (utf8Cont b2 = true ∧ utf8Cont b3 = true)
                · rw [if_pos hc] at h
                  by_cases hr : (2048 ≤ (b - 224) * 4096 + (b2 - 128) * 64 + (b3 - 128) ∧
                      ¬(55296 ≤ (b - 224) * 4096 + (b2 - 128) * 64 + (b3 - 128) ∧
                        (b - 224) * 4096 + (b2 - 128) * 64 + (b3 - 128) < 57344))
                  · rw [if_pos hr] at h
                    exact ih rest3 e (exceptMap_err h)
                  · rw [if_neg hr] at h; cases h; rfl
                · rw [if_neg hc] at h; cases h; rfl
          · rw [if_neg h3] at h
            by_cases h4 : 240 ≤ b ∧ b < 245
            · rw [if_pos h4] at h
              cases rest with
              | nil => cases h; rfl
              | cons b2 r2 =>
                cases r2 with
                | nil => cases h; rfl
                | cons b3 r3 =>
                  cases r3 with
                  | nil => cases h; rfl
                  | cons b4 rest4 =>
                    dsimp only [] at h
                    by_cases hc : (utf8Cont b2 = true ∧ utf8Cont b3 = true ∧
                        utf8Cont b4 = true)
                    · rw [if_pos hc] at h
                      by_cases hr : (65536 ≤ (b - 240) * 262144 + (b2 - 128) * 4096 +
                            (b3 - 128) * 64 + (b4 - 128) ∧
                          (b - 240) * 262144 + (b2 - 128) * 4096 +
                            (b3 - 128) * 64 + (b4 - 128) < 1114112)
                      · rw [if_pos hr] at h
                        exact ih rest4 e (exceptMap_err h)
                      · rw [if_neg hr] at h; cases h; rfl
                    · rw [if_neg hc] at h; cases h; rfl
            · rw [if_neg h4] at h; cases h; rfl

/-- Every error `bytes.decode()` can raise is a `UnicodeDecodeError`. -/
theorem bytesDecodeUtf8_err {l : List Nat} {e : PyErr}
    (h : bytesDecodeUtf8 l = .error e) : e = .unicodeDecodeError :=
  bytesDecodeUtf8Go_err l.length l e h

theorem readVarLoop_err (binary : List Nat) (maxIndex : Int) :
    ∀ (fuel deltaShift value index : Nat) (e : PyErr),
      Decoder.readVarLoop binary maxIndex fuel deltaShift value index = .error e →
      isDecodeErrKind e = true := by
  intro fuel
  induction fuel with
  | zero =>
    intro deltaShift value index e h
    rw [Decoder.readVarLoop] at h
    by_cases hg : ((index : Int) > maxIndex)
    · rw [if_pos hg] at h; cases h; rfl
    · rw [if_neg hg] at h; cases h; rfl
  | succ f ih =>
    intro deltaShift value index e h
    rw [Decoder.readVarLoop] at h
    by_cases hg : ((index : Int) > maxIndex)
    · rw [if_pos hg] at h; cases h; rfl
    · rw [if_neg hg] at h
      cases hget : binary.get? index with
      | none => rw [hget] at h; cases h; rfl
      | some b =>
        rw [hget] at h
        dsimp only [] at h
        by_cases hf : (Decoder.readBitsChunk b 7 deltaShift value).2 = true
        · rw [if_pos hf] at h
          exact ih _ _ _ _ h
        · rw [if_neg hf] at h; cases h

theorem readVarEncoded_err (binary : List Nat) (maxIndex : Int)
    (baseValue baseBits index : Nat) (e : PyErr)
    (h : Decoder.readVarEncoded binary baseValue baseBits index maxIndex = .error e) :
    isDecodeErrKind e = true := by
  rw [readVarEncoded_def] at h
  by_cases hc : (baseBits = 0 ∨ (Decoder.readBitsChunk baseValue baseBits 0 0).2 = true)
  · rw [if_pos hc] at h
    exact readVarLoop_err binary maxIndex _ _ _ _ _ h
  · rw [if_neg hc] at h; cases h

theorem readSerializedCard_err (binary : List Nat) (readUntilIndex : Int)
    (prev cur : Nat) (e : PyErr)
    (h : Decoder.readSerializedCard binary readUntilIndex prev cur = .error e) :
    isDecodeErrKind e = true := by
  unfold Decoder.readSerializedCard at h
  by_cases hg : ((cur : Int) > readUntilIndex)
  · rw [if_pos hg] at h; cases h; rfl
  · rw [if_neg hg] at h
    cases hget : pyGet binary cur with
    | error e2 =>
      rw [hget] at h
      cases h
      rw [pyGet_err hget]
      rfl
    | ok header =>
      rw [hget] at h
      dsimp only [] at h
      cases hvar : Decoder.readVarEncoded binary header 5 (cur + 1) readUntilIndex with
      | error e2 =>
        rw [hvar] at h
        cases h
        exact readVarEncoded_err _ _ _ _ _ _ hvar
      | ok pr =>
        obtain ⟨delta, i1⟩ := pr
        rw [hvar] at h
        dsimp only [] at h
        by_cases hext : header >>> 6 = 3
        · rw [if_pos hext] at h
          cases hvar2 : Decoder.readVarEncoded binary 0 0 i1 readUntilIndex with
          | error e2 =>
            rw [hvar2] at h
            cases h
            exact readVarEncoded_err _ _ _ _ _ _ hvar2
          | ok pr2 =>
            obtain ⟨count, i2⟩ := pr2
            rw [hvar2] at h
            cases h
        · rw [if_neg hext] at h; cases h

theorem readHeroesLoop_err (binary : List Nat) (totalCardBytes : Int) :
    ∀ (n prev cur : Nat) (e : PyErr),
      Decoder.readHeroesLoop binary totalCardBytes n prev cur = .error e →
      isDecodeErrKind e = true := by
  intro n
  induction n with
  | zero => intro prev cur e h; cases h
  | succ m ih =>
    intro prev cur e h
    rw [Decoder.readHeroesLoop] at h
    cases hcard : Decoder.readSerializedCard binary totalCardBytes prev cur with
    | error e2 =>
      rw [hcard] at h; cases h
      exact readSerializedCard_err _ _ _ _ _ hcard
    | ok tr =>
      obtain ⟨turn, id, i1⟩ := tr
      rw [hcard] at h
      dsimp only [] at h
      cases hrest : Decoder.readHeroesLoop binary totalCardBytes m id i1 with
      | error e2 =>
        rw [hrest] at h; cases h
        exact ih _ _ _ hrest
      | ok pr =>
        rw [hrest] at h
        obtain ⟨rest, fin⟩ := pr
        dsimp only [] at h
        cases h

theorem readCardsLoop_err (binary : List Nat) (totalCardBytes : Int) :
    ∀ (fuel prev cur : Nat) (e : PyErr),
      Decoder.readCardsLoop binary totalCardBytes fuel prev cur = .error e →
      isDecodeErrKind e = true := by
  intro fuel
  induction fuel with
  | zero =>
    intro prev cur e h
    rw [Decoder.readCardsLoop] at h
    by_cases hc : ((cur : Int) < totalCardBytes)
    · rw [if_pos hc] at h; cases h; rfl
    · rw [if_neg hc] at h; cases h
  | succ f ih =>
    intro prev cur e h
    rw [Decoder.readCardsLoop] at h
    by_cases hc : ((cur : Int) < totalCardBytes)
    · rw [if_pos hc] at h
      cases hcard : Decoder.readSerializedCard binary (binary.length : Int) prev cur with
      | error e2 =>
        rw [hcard] at h; cases h
        exact readSerializedCard_err _ _ _ _ _ hcard
      | ok tr =>
        obtain ⟨count, id, i1⟩ := tr
        rw [hcard] at h
        dsimp only [] at h
        cases hrest : Decoder.readCardsLoop binary totalCardBytes f id i1 with
        | error e2 =>
          rw [hrest] at h; cases h
          exact ih _ _ _ hrest
        | ok pr =>
          rw [hrest] at h
          obtain ⟨rest, fin⟩ := pr
          dsimp only [] at h
          cases h
    · rw [if_neg hc] at h; cases h

theorem parseDeck_err (binary : List Nat) (versionAndHeroes start : Nat)
    (totalCardBytes : Int) (nameLength : Nat) (e : PyErr)
    (h : Decoder.parseDeck binary versionAndHeroes start totalCardBytes nameLength
      = .error e) :
    isDecodeErrKind e = true := by
  unfold Decoder.parseDeck at h
  cases hvar : Decoder.readVarEncoded binary versionAndHeroes 3 start totalCardBytes with
  | error e2 =>
    rw [hvar] at h; cases h
    exact readVarEncoded_err _ _ _ _ _ _ hvar
  | ok pr =>
    obtain ⟨heroesCount, i0⟩ := pr
    rw [hvar] at h
    dsimp only [] at h
    cases hh : Decoder.readHeroesLoop binary totalCardBytes heroesCount 0 i0 with
    | error e2 =>
      rw [hh] at h; cases h
      exact readHeroesLoop_err _ _ _ _ _ _ hh
    | ok pr2 =>
      obtain ⟨heroes, i1⟩ := pr2
      rw [hh] at h
      dsimp only [] at h
      cases hca : Decoder.readCardsLoop binary totalCardBytes (binary.length + 1) 0 i1 with
      | error e2 =>
        rw [hca] at h; cases h
        exact readCardsLoop_err _ _ _ _ _ _ hca
      | ok pr3 =>
        obtain ⟨cards, i2⟩ := pr3
        rw [hca] at h
        dsimp only [] at h
        by_cases hn : nameLength ≠ 0
        · rw [if_pos hn] at h
          cases hdec : bytesDecodeUtf8 (pyTakeLast binary nameLength) with
          | error e2 =>
            rw [hdec] at h
            have hmape : (bytesDecodeUtf8 (pyTakeLast binary nameLength)).map reSubTags
                = .error e2 := by rw [hdec]; rfl
            rw [hdec] at hmape
            dsimp only [Except.map] at h
            cases h
            rw [bytesDecodeUtf8_err hdec]
            rfl
          | ok name =>
            rw [hdec] at h
            dsimp only [Except.map] at h
            cases h
        · rw [if_neg hn] at h
          cases h

theorem getVersionAndHeroes_err (binary : List Nat) (e : PyErr)
    (h : Decoder.getVersionAndHeroes binary = .error e) :
    isDecodeErrKind e = true := by
  unfold Decoder.getVersionAndHeroes at h
  cases hget : pyGet binary 0 with
  | error e2 =>
    rw [hget] at h; cases h
    rw [pyGet_err hget]; rfl
  | ok vb =>
    rw [hget] at h
    dsimp only [] at h
    by_cases hv : vb >>> 4 ∉ [1, 2]
    · rw [if_pos hv] at h; cases h; rfl
    · rw [if_neg hv] at h; cases h

theorem getLengthsAndChecksum_err (binary : List Nat) (version : Nat) (e : PyErr)
    (h : Decoder.getLengthsAndChecksum binary version = .error e) :
    isDecodeErrKind e = true := by
  unfold Decoder.getLengthsAndChecksum at h
  cases hget : pyGet binary 2 with
  | error e2 =>
    rw [hget] at h; cases h
    rw [pyGet_err hget]; rfl
  | ok b2 =>
    rw [hget] at h
    dsimp only [] at h
    cases hget1 : pyGet binary 1 with
    | error e2 =>
      rw [hget1] at h; cases h
      rw [pyGet_err hget1]; rfl
    | ok b1 =>
      rw [hget1] at h
      dsimp only [] at h
      split at h <;> split at h <;>
        first
        | (cases h; rfl)
        | cases h

theorem decodeString_err (deckCode : String) (e : PyErr)
    (h : Decoder.decodeString deckCode = .error e) :
    isDecodeErrKind e = true ∨
      (e = .valueError ∧
        ¬ ∀ c ∈ pyReplaceChar '_' '=' (pyReplaceChar '-' '/'
            (Decoder.strippedCode deckCode)), c.toNat < 128) := by
  unfold Decoder.decodeString at h
  by_cases hpre : ¬ "ADC".data.isPrefixOf deckCode.data = true
  · rw [if_pos hpre] at h; cases h; exact Or.inl rfl
  · rw [if_neg hpre] at h
    cases hb64 : pyB64decode
        (pyReplaceChar '_' '=' (pyReplaceChar '-' '/' (Decoder.strippedCode deckCode))) with
    | error e2 =>
      rw [hb64] at h; cases h
      unfold pyB64decode at hb64
      split at hb64
      · refine Or.inl ?_
        rw [a2bLoop_err _ _ _ _ _ hb64]; rfl
      · cases hb64
        rename_i hguard
        exact Or.inr ⟨rfl, hguard⟩
    | ok decoded =>
      rw [hb64] at h
      dsimp only [] at h
      by_cases hemp : decoded = []
      · rw [if_pos hemp] at h; cases h; exact Or.inl rfl
      · rw [if_neg hemp] at h; cases h

theorem decodeBinary_err (binary : List Nat) (e : PyErr)
    (h : Decoder.decodeBinary binary = .error e) :
    isDecodeErrKind e = true := by
  unfold Decoder.decodeBinary at h
  cases hv : Decoder.getVersionAndHeroes binary with
  | error e2 =>
    rw [hv] at h; cases h
    exact getVersionAndHeroes_err _ _ hv
  | ok pr =>
    obtain ⟨vb, version⟩ := pr
    rw [hv] at h
    dsimp only [] at h
    cases hl : Decoder.getLengthsAndChecksum binary version with
    | error e2 =>
      rw [hl] at h; cases h
      exact getLengthsAndChecksum_err _ _ _ hl
    | ok pr2 =>
      obtain ⟨nameLength, start, total⟩ := pr2
      rw [hl] at h
      dsimp only [] at h
      exact parseDeck_err _ _ _ _ _ _ h

/-- **C8 amended**: every failure of `decode_deck_string` is one of the
typed `InvalidDeckString`/`DeckDecodeException` errors *or* one of the
four uncaught builtin Python exceptions the original claim wrongly
excludes: `binascii.Error` (invalid base64), `IndexError` (payload too
short for its header, or a read at the very end of the buffer),
`UnicodeDecodeError` (invalid name bytes), and the plain `ValueError`
from `base64.b64decode`'s ASCII-only check — the latter exactly when
the string handed to base64 (after stripping and the url-safe
substitutions) contains a non-ASCII character.  The encoder-side
`DeckEncodeException` never escapes a decode, and a failing decode
returns no partial `DeckContents` (the result is a single `Except`
value). -/
theorem claim8_amended (deckCode : String) (e : PyErr)
    (h : decodeDeckString deckCode = .error e) :
    isDecodeErrKind e = true ∨
      (e = .valueError ∧
        ¬ ∀ c ∈ pyReplaceChar '_' '=' (pyReplaceChar '-' '/'
            (Decoder.strippedCode deckCode)), c.toNat < 128) := by
  unfold decodeDeckString at h
  cases hs : Decoder.decodeString deckCode with
  | error e2 =>
    rw [hs] at h; cases h
    exact decodeString_err _ _ hs
  | ok binary =>
    rw [hs] at h
    exact Or.inl (decodeBinary_err _ _ h)

/-- Witness for C8: the base64 failure on `"ADCx"` is of an allowed
kind. -/
theorem claim8_witness :
    isDecodeErrKind .binasciiError = true ∨
      ((.binasciiError : PyErr) = .valueError ∧
        ¬ ∀ c ∈ pyReplaceChar '_' '=' (pyReplaceChar '-' '/'
            (Decoder.strippedCode "ADCx")), c.toNat < 128) :=
  claim8_amended "ADCx" .binasciiError (by decide)

/-- **C8 counterexample**: four inputs on which `decode_deck_string`
raises uncaught builtin Python exceptions rather than the typed
`InvalidDeckString`/`DeckDecodeException` the claim allows:
a base64 `binascii.Error` (one leftover data character), an `IndexError`
(version-2 header longer than the 3-byte payload, hero-count varint
continues at the buffer end), a `UnicodeDecodeError` (name byte
`0xFF`), and the plain `ValueError` of `base64.b64decode`'s ASCII
check on the non-ASCII payload character `é`. -/
theorem claim8_counterexample :
    decodeDeckString "ADCx" = .error .binasciiError ∧
    decodeDeckString "ADCKAAA" = .error .indexError ∧
    decodeDeckString "ADCIAABAP8_" = .error .unicodeDecodeError ∧
    decodeDeckString "ADCé" = .error .valueError := by
  decide

/-! ### Name sanitization (C7) -/

theorem tagScan_length :
    ∀ (l after : List Char), tagTail.tagScan l = some after →
      after.length < l.length := by
  intro l
  induction l with
  | nil => intro after h; cases h
  | cons d r2 ih =>
    intro after h
    rw [tagTail.tagScan] at h
    by_cases h1 : d = '>'
    · rw [if_pos h1] at h
      cases h
      simp
    · rw [if_neg h1] at h
      by_cases h2 : d = '<'
      · rw [if_pos h2] at h; cases h
      · rw [if_neg h2] at h
        have := ih after h
        simp
        omega

theorem tagTail_length {l after : List Char} (h : tagTail l = some after) :
    after.length < l.length := by
  cases l with
  | nil => cases h
  | cons c rest =>
    rw [tagTail] at h
    by_cases h1 : c = '<'
    · rw [if_pos h1] at h; cases h
    · rw [if_neg h1] at h
      have := tagScan_length rest after h
      simp
      omega

theorem reSubTagsGo_length :
    ∀ (fuel : Nat) (s : List Char), (reSubTagsGo fuel s).length ≤ s.length := by
  intro fuel
  induction fuel with
  | zero => intro s; rw [reSubTagsGo]
  | succ f ih =>
    intro s
    cases s with
    | nil => rw [reSubTagsGo]
    | cons c rest =>
      rw [reSubTagsGo]
      by_cases h1 : c = '<'
      · rw [if_pos h1]
        cases htag : tagTail rest with
        | some after =>
          have h2 := tagTail_length htag
          have h3 := ih after
          simp
          omega
        | none =>
          have h3 := ih rest
          simp
          omega
      · rw [if_neg h1]
        have h3 := ih rest
        simp
        omega

/-- Tag stripping never lengthens a string. -/
theorem reSubTags_length (s : List Char) : (reSubTags s).length ≤ s.length :=
  reSubTagsGo_length s.length s

/-- The 68-character name `"<aaa…a>"` used to separate the two
sanitization orders. -/
def longTagName : String := ⟨'<' :: (List.replicate 66 'a' ++ ['>'])⟩

/-- **C7 counterexample**: on a 68-character name consisting of one
HTML-like tag, stripping first and then truncating yields the empty
string, but the encoder truncates first — cutting off the closing `>` —
and then finds no tag to strip, storing `"<aaa…a"` (63 characters). -/
theorem claim7_counterexample :
    reSubTags longTagName.data = [] ∧
    Encoder.encoderName ⟨longTagName, [], []⟩ = '<' :: List.replicate 62 'a' ∧
    Encoder.encoderName ⟨longTagName, [], []⟩ ≠
      (reSubTags longTagName.data).take 63 := by
  decide

/-- **C7 amended**: the name the encoder stores is the input name
*truncated to 63 characters first* and tag-stripped second
(`re.sub('<[^<]+?>', '', name[:63])`); in particular it is always at
most 63 characters long. -/
theorem claim7_amended (deckContents : DeckContents) :
    Encoder.encoderName deckContents =
      reSubTags (deckContents.name.data.take 63) ∧
    (Encoder.encoderName deckContents).length ≤ 63 := by
  constructor
  · rfl
  · calc (Encoder.encoderName deckContents).length
        ≤ (deckContents.name.data.take 63).length :=
          reSubTags_length _
      _ ≤ 63 := by simp

/-! ### Base64 round trip -/

theorem and3_eq (x : Nat) : x &&& 3 = x % 4 := by
  have h := Nat.and_pow_two_sub_one_eq_mod x 2
  norm_num at h
  exact h

theorem and15_eq (x : Nat) : x &&& 15 = x % 16 := by
  have h := Nat.and_pow_two_sub_one_eq_mod x 4
  norm_num at h
  exact h

theorem and63_eq (x : Nat) : x &&& 63 = x % 64 := by
  have h := Nat.and_pow_two_sub_one_eq_mod x 6
  norm_num at h
  exact h

theorem shr2_eq (x : Nat) : x >>> 2 = x / 4 := by
  rw [Nat.shiftRight_eq_div_pow]

theorem shr4_eq (x : Nat) : x >>> 4 = x / 16 := by
  rw [Nat.shiftRight_eq_div_pow]

theorem shr6_eq (x : Nat) : x >>> 6 = x / 64 := by
  rw [Nat.shiftRight_eq_div_pow]

/-- `(q <<< k) ||| u = 2^k·q + u` when `u` fits below bit `k`. -/
theorem shlk_or (k q u : Nat) (hu : u < 2 ^ k) : (q <<< k) ||| u = 2 ^ k * q + u := by
  rw [Nat.lor_comm, lor_shiftLeft_eq_add q k hu]
  ring

/-- The base64 alphabet characters are not `=` and decode back to their
index. -/
theorem b64CharOf_facts :
    ∀ n, n < 64 → b64CharOf n ≠ '=' ∧ b64IndexOf (b64CharOf n) = some n := by
  decide

/-- Decoding one full base64 quad of six-bit values. -/
theorem a2bLoop_quad (n1 n2 n3 n4 : Nat) (rest : List Char) (pads : Nat)
    (h1 : n1 < 64) (h2 : n2 < 64) (h3 : n3 < 64) (h4 : n4 < 64) :
    a2bLoop (b64CharOf n1 :: b64CharOf n2 :: b64CharOf n3 ::
        b64CharOf n4 :: rest) 0 0 pads =
      b64Cons (4 * n1 + n2 / 16)
        (b64Cons (16 * (n2 % 16) + n3 / 4)
          (b64Cons (64 * (n3 % 4) + n4) (a2bLoop rest 0 0 0))) := by
  obtain ⟨hne1, hix1⟩ := b64CharOf_facts n1 h1
  obtain ⟨hne2, hix2⟩ := b64CharOf_facts n2 h2
  obtain ⟨hne3, hix3⟩ := b64CharOf_facts n3 h3
  obtain ⟨hne4, hix4⟩ := b64CharOf_facts n4 h4
  rw [a2bLoop, if_neg hne1, hix1]
  dsimp only []
  have hacc1 : (0 <<< 6) ||| n1 = n1 := by simp
  rw [hacc1]
  rw [a2bLoop, if_neg hne2, hix2]
  dsimp only []
  have hacc2 : (n1 <<< 6) ||| n2 = 64 * n1 + n2 := by
    have hlt : n2 < 2 ^ 6 := by norm_num; exact h2
    have h := shlk_or 6 n1 n2 hlt
    norm_num at h
    exact h
  rw [hacc2]
  have hB1 : (64 * n1 + n2) >>> 4 = 4 * n1 + n2 / 16 := by rw [shr4_eq]; omega
  have hL2 : (64 * n1 + n2) &&& 15 = n2 % 16 := by rw [and15_eq]; omega
  rw [hB1, hL2]
  rw [a2bLoop, if_neg hne3, hix3]
  dsimp only []
  have hacc3 : ((n2 % 16) <<< 6) ||| n3 = 64 * (n2 % 16) + n3 := by
    have hlt : n3 < 2 ^ 6 := by norm_num; exact h3
    have h := shlk_or 6 (n2 % 16) n3 hlt
    norm_num at h
    exact h
  rw [hacc3]
  have hB2 : (64 * (n2 % 16) + n3) >>> 2 = 16 * (n2 % 16) + n3 / 4 := by
    rw [shr2_eq]; omega
  have hL3 : (64 * (n2 % 16) + n3) &&& 3 = n3 % 4 := by rw [and3_eq]; omega
  rw [hB2, hL3]
  rw [a2bLoop, if_neg hne4, hix4]
  dsimp only []
  have hacc4 : ((n3 % 4) <<< 6) ||| n4 = 64 * (n3 % 4) + n4 := by
    have hlt : n4 < 2 ^ 6 := by norm_num; exact h4
    have h := shlk_or 6 (n3 % 4) n4 hlt
    norm_num at h
    exact h
  rw [hacc4]

/-- Decoding a full three-byte chunk of `b64encode` output. -/
theorem a2bLoop_chunk3 (a b c : Nat) (rest : List Char) (pads : Nat)
    (ha : a < 256) (hb : b < 256) (hc : c < 256) :
    a2bLoop (b64CharOf (a >>> 2) :: b64CharOf (((a &&& 3) <<< 4) ||| (b >>> 4)) ::
        b64CharOf (((b &&& 15) <<< 2) ||| (c >>> 6)) :: b64CharOf (c &&& 63) :: rest)
      0 0 pads =
      b64Cons a (b64Cons b (b64Cons c (a2bLoop rest 0 0 0))) := by
  have e1 : a >>> 2 = a / 4 := shr2_eq a
  have e2 : ((a &&& 3) <<< 4) ||| (b >>> 4) = 16 * (a % 4) + b / 16 := by
    rw [and3_eq, shr4_eq]
    have hlt : b / 16 < 2 ^ 4 := by norm_num; omega
    have h := shlk_or 4 (a % 4) (b / 16) hlt
    norm_num at h
    exact h
  have e3 : ((b &&& 15) <<< 2) ||| (c >>> 6) = 4 * (b % 16) + c / 64 := by
    rw [and15_eq, shr6_eq]
    have hlt : c / 64 < 2 ^ 2 := by norm_num; omega
    have h := shlk_or 2 (b % 16) (c / 64) hlt
    norm_num at h
    exact h
  have e4 : c &&& 63 = c % 64 := and63_eq c
  rw [e1, e2, e3, e4]
  rw [a2bLoop_quad (a / 4) (16 * (a % 4) + b / 16) (4 * (b % 16) + c / 64) (c % 64)
    rest pads (by omega) (by omega) (by omega) (by omega)]
  have hb1 : 4 * (a / 4) + (16 * (a % 4) + b / 16) / 16 = a := by omega
  have hb2 : 16 * ((16 * (a % 4) + b / 16) % 16) + (4 * (b % 16) + c / 64) / 4 = b := by
    omega
  have hb3 : 64 * ((4 * (b % 16) + c / 64) % 4) + c % 64 = c := by omega
  rw [hb1, hb2, hb3]

/-- Decoding a padded one-byte final chunk. -/
theorem a2bLoop_chunk1 (a : Nat) (pads : Nat) (ha : a < 256) :
    a2bLoop [b64CharOf (a >>> 2), b64CharOf ((a &&& 3) <<< 4), '=', '='] 0 0 pads =
      .ok [a] := by
  have e1 : a >>> 2 = a / 4 := shr2_eq a
  have e2 : (a &&& 3) <<< 4 = 16 * (a % 4) := by
    rw [and3_eq, Nat.shiftLeft_eq]
    norm_num
    ring
  rw [e1, e2]
  obtain ⟨hne1, hix1⟩ := b64CharOf_facts (a / 4) (by omega)
  obtain ⟨hne2, hix2⟩ := b64CharOf_facts (16 * (a % 4)) (by omega)
  rw [a2bLoop, if_neg hne1, hix1]
  dsimp only []
  have hacc1 : (0 <<< 6) ||| (a / 4) = a / 4 := by simp
  rw [hacc1]
  rw [a2bLoop, if_neg hne2, hix2]
  dsimp only []
  have hacc2 : ((a / 4) <<< 6) ||| (16 * (a % 4)) = 64 * (a / 4) + 16 * (a % 4) := by
    have hlt : 16 * (a % 4) < 2 ^ 6 := by norm_num; omega
    have h := shlk_or 6 (a / 4) _ hlt
    norm_num at h
    exact h
  rw [hacc2]
  have hB1 : (64 * (a / 4) + 16 * (a % 4)) >>> 4 = a := by rw [shr4_eq]; omega
  rw [hB1]
  rw [a2bLoop, if_pos rfl, if_pos (by omega : (2:Nat) ≤ 2),
    if_neg (by omega : ¬ 4 ≤ 2 + (0 + 1))]
  rw [a2bLoop, if_pos rfl, if_pos (by omega : (2:Nat) ≤ 2),
    if_pos (by omega : 4 ≤ 2 + (0 + 1 + 1))]
  rfl

/-- Decoding a padded two-byte final chunk. -/
theorem a2bLoop_chunk2 (a b : Nat) (pads : Nat) (ha : a < 256) (hb : b < 256) :
    a2bLoop [b64CharOf (a >>> 2), b64CharOf (((a &&& 3) <<< 4) ||| (b >>> 4)),
      b64CharOf ((b &&& 15) <<< 2), '='] 0 0 pads = .ok [a, b] := by
  have e1 : a >>> 2 = a / 4 := shr2_eq a
  have e2 : ((a &&& 3) <<< 4) ||| (b >>> 4) = 16 * (a % 4) + b / 16 := by
    rw [and3_eq, shr4_eq]
    have hlt : b / 16 < 2 ^ 4 := by norm_num; omega
    have h := shlk_or 4 (a % 4) (b / 16) hlt
    norm_num at h
    exact h
  have e3 : (b &&& 15) <<< 2 = 4 * (b % 16) := by
    rw [and15_eq, Nat.shiftLeft_eq]
    norm_num
    ring
  rw [e1, e2, e3]
  obtain ⟨hne1, hix1⟩ := b64CharOf_facts (a / 4) (by omega)
  obtain ⟨hne2, hix2⟩ := b64CharOf_facts (16 * (a % 4) + b / 16) (by omega)
  obtain ⟨hne3, hix3⟩ := b64CharOf_facts (4 * (b % 16)) (by omega)
  rw [a2bLoop, if_neg hne1, hix1]
  dsimp only []
  have hacc1 : (0 <<< 6) ||| (a / 4) = a / 4 := by simp
  rw [hacc1]
  rw [a2bLoop, if_neg hne2, hix2]
  dsimp only []
  have hacc2 : ((a / 4) <<< 6) ||| (16 * (a % 4) + b / 16) =
      64 * (a / 4) + (16 * (a % 4) + b / 16) := by
    have hlt : 16 * (a % 4) + b / 16 < 2 ^ 6 := by norm_num; omega
    have h := shlk_or 6 (a / 4) _ hlt
    norm_num at h
    exact h
  rw [hacc2]
  have hB1 : (64 * (a / 4) + (16 * (a % 4) + b / 16)) >>> 4 = a := by
    rw [shr4_eq]; omega
  have hL2 : (64 * (a / 4) + (16 * (a % 4) + b / 16)) &&& 15 = b / 16 := by
    rw [and15_eq]; omega
  rw [hB1, hL2]
  rw [a2bLoop, if_neg hne3, hix3]
  dsimp only []
  have hacc3 : ((b / 16) <<< 6) ||| (4 * (b % 16)) = 64 * (b / 16) + 4 * (b % 16) := by
    have hlt : 4 * (b % 16) < 2 ^ 6 := by norm_num; omega
    have h := shlk_or 6 (b / 16) _ hlt
    norm_num at h
    exact h
  rw [hacc3]
  have hB2 : (64 * (b / 16) + 4 * (b % 16)) >>> 2 = b := by rw [shr2_eq]; omega
  rw [hB2]
  rw [a2bLoop, if_pos rfl, if_pos (by omega : (2:Nat) ≤ 3),
    if_pos (by omega : 4 ≤ 3 + (0 + 1))]
  rfl

theorem a2bLoop_b64encode :
    ∀ (n : Nat) (l : List Nat), l.length ≤ n → (∀ x ∈ l, x < 256) → ∀ pads,
      a2bLoop (b64encodeList l) 0 0 pads = .ok l := by
  intro n
  induction n with
  | zero =>
    intro l hl _ pads
    have hnil : l = [] := List.eq_nil_of_length_eq_zero (by omega)
    subst hnil
    rfl
  | succ n ih =>
    intro l hl hx pads
    rcases l with _ | ⟨a, _ | ⟨b, _ | ⟨c, rest⟩⟩⟩
    · rfl
    · rw [b64encodeList]
      exact a2bLoop_chunk1 a pads (hx a (by simp))
    · rw [b64encodeList]
      exact a2bLoop_chunk2 a b pads (hx a (by simp)) (hx b (by simp))
    · rw [b64encodeList]
      rw [a2bLoop_chunk3 a b c (b64encodeList rest) pads
        (hx a (by simp)) (hx b (by simp)) (hx c (by simp))]
      rw [ih rest (by simp at hl; omega)
        (fun x hx' => hx x (by simp [hx'])) 0]
      rfl

/-- Every character of `b64encode` output is an alphabet character or
`=`. -/
theorem b64encodeList_chars :
    ∀ (n : Nat) (l : List Nat), l.length ≤ n → (∀ x ∈ l, x < 256) →
      ∀ ch ∈ b64encodeList l, (∃ m, m < 64 ∧ ch = b64CharOf m) ∨ ch = '=' := by
  intro n
  induction n with
  | zero =>
    intro l hl _ ch hch
    have hnil : l = [] := List.eq_nil_of_length_eq_zero (by omega)
    subst hnil
    cases hch
  | succ n ih =>
    intro l hl hx ch hch
    rcases l with _ | ⟨a, _ | ⟨b, _ | ⟨c, rest⟩⟩⟩
    · cases hch
    · have ha : a < 256 := hx a (by simp)
      rw [b64encodeList] at hch
      have h1 : a >>> 2 < 64 := by rw [shr2_eq]; omega
      have h2 : (a &&& 3) <<< 4 < 64 := by
        rw [and3_eq, Nat.shiftLeft_eq]
        norm_num
        omega
      simp only [List.mem_cons, List.not_mem_nil, or_false] at hch
      rcases hch with rfl | rfl | rfl | rfl
      · exact Or.inl ⟨_, h1, rfl⟩
      · exact Or.inl ⟨_, h2, rfl⟩
      · exact Or.inr rfl
      · exact Or.inr rfl
    · have ha : a < 256 := hx a (by simp)
      have hb : b < 256 := hx b (by simp)
      rw [b64encodeList] at hch
      have h1 : a >>> 2 < 64 := by rw [shr2_eq]; omega
      have h2 : ((a &&& 3) <<< 4) ||| (b >>> 4) < 64 := by
        have : ((a &&& 3) <<< 4) ||| (b >>> 4) = 16 * (a % 4) + b / 16 := by
          rw [and3_eq, shr4_eq]
          have hlt : b / 16 < 2 ^ 4 := by norm_num; omega
          have h := shlk_or 4 (a % 4) (b / 16) hlt
          norm_num at h
          exact h
        omega
      have h3 : (b &&& 15) <<< 2 < 64 := by
        rw [and15_eq, Nat.shiftLeft_eq]
        norm_num
        omega
      simp only [List.mem_cons, List.not_mem_nil, or_false] at hch
      rcases hch with rfl | rfl | rfl | rfl
      · exact Or.inl ⟨_, h1, rfl⟩
      · exact Or.inl ⟨_, h2, rfl⟩
      · exact Or.inl ⟨_, h3, rfl⟩
      · exact Or.inr rfl
    · have ha : a < 256 := hx a (by simp)
      have hb : b < 256 := hx b (by simp)
      have hc : c < 256 := hx c (by simp)
      rw [b64encodeList] at hch
      have h1 : a >>> 2 < 64 := by rw [shr2_eq]; omega
      have h2 : ((a &&& 3) <<< 4) ||| (b >>> 4) < 64 := by
        have : ((a &&& 3) <<< 4) ||| (b >>> 4) = 16 * (a % 4) + b / 16 := by
          rw [and3_eq, shr4_eq]
          have hlt : b / 16 < 2 ^ 4 := by norm_num; omega
          have h := shlk_or 4 (a % 4) (b / 16) hlt
          norm_num at h
          exact h
        omega
      have h3 : ((b &&& 15) <<< 2) ||| (c >>> 6) < 64 := by
        have : ((b &&& 15) <<< 2) ||| (c >>> 6) = 4 * (b % 16) + c / 64 := by
          rw [and15_eq, shr6_eq]
          have hlt : c / 64 < 2 ^ 2 := by norm_num; omega
          have h := shlk_or 2 (b % 16) (c / 64) hlt
          norm_num at h
          exact h
        omega
      have h4 : c &&& 63 < 64 := by rw [and63_eq]; omega
      simp only [List.mem_cons] at hch
      rcases hch with rfl | rfl | rfl | rfl | hch
      · exact Or.inl ⟨_, h1, rfl⟩
      · exact Or.inl ⟨_, h2, rfl⟩
      · exact Or.inl ⟨_, h3, rfl⟩
      · exact Or.inl ⟨_, h4, rfl⟩
      · exact ih rest (by simp at hl; omega)
          (fun x hx' => hx x (by simp [hx'])) ch hch

/-- Every character of `b64encode` output is ASCII. -/
theorem b64encodeList_ascii (l : List Nat) (h : ∀ x ∈ l, x < 256) :
    ∀ c ∈ b64encodeList l, c.toNat < 128 := by
  intro c hc
  rcases b64encodeList_chars l.length l le_rfl h c hc with ⟨m, hm, rfl⟩ | rfl
  · exact (by decide : ∀ m, m < 64 → (b64CharOf m).toNat < 128) m hm
  · decide

/-- `b64decode(b64encode(bytes)) = bytes` for genuine bytes. -/
theorem pyB64decode_b64encode (l : List Nat) (h : ∀ x ∈ l, x < 256) :
    pyB64decode (b64encodeList l) = .ok l := by
  unfold pyB64decode
  rw [if_pos (b64encodeList_ascii l h)]
  exact a2bLoop_b64encode l.length l le_rfl h 0

/-- Applying the encoder's url-safe substitutions and then the decoder's
inverse substitutions fixes every base64 alphabet character. -/
theorem unsub_sub_b64Char :
    ∀ m, m < 64 →
      (fun c => if c = '_' then '=' else c)
        ((fun c => if c = '-' then '/' else c)
          ((fun c => if c = '=' then '_' else c)
            ((fun c => if c = '/' then '-' else c) (b64CharOf m)))) = b64CharOf m := by
  decide

theorem unsub_sub_eqChar :
    (fun c => if c = '_' then '=' else c)
      ((fun c => if c = '-' then '/' else c)
        ((fun c => if c = '=' then '_' else c)
          ((fun c => if c = '/' then '-' else c) '='))) = '=' := by
  decide

/-- The first base64 character of a version-1/2 payload survives the
substitutions and is not an `A`, `D` or `C`. -/
theorem firstChar_not_adc :
    ∀ m, m < 12 → 4 ≤ m →
      ¬ ((fun c => if c = '=' then '_' else c)
          ((fun c => if c = '/' then '-' else c) (b64CharOf m))
        ∈ (['A', 'D', 'C'] : List Char)) := by
  decide

/-- `_decode_string` recovers the payload from the string the encoder
builds, for any payload whose first byte carries version 1 or 2. -/
theorem decodeString_deckStringOfBinary (b0 : Nat) (rest : List Nat)
    (hbytes : ∀ x ∈ b0 :: rest, x < 256) (h0lo : 16 ≤ b0) (h0hi : b0 < 48) :
    Decoder.decodeString (Encoder.deckStringOfBinary (b0 :: rest)) = .ok (b0 :: rest) := by
  have hchars := b64encodeList_chars (b0 :: rest).length (b0 :: rest) le_rfl hbytes
  obtain ⟨tl, htl⟩ : ∃ tl, b64encodeList (b0 :: rest) =
      b64CharOf (b0 >>> 2) :: tl := by
    rcases rest with _ | ⟨x, _ | ⟨y, r⟩⟩ <;> exact ⟨_, rfl⟩
  have hdata2 : (Encoder.deckStringOfBinary (b0 :: rest)).data =
      'A' :: 'D' :: 'C' ::
        pyReplaceChar '=' '_' (pyReplaceChar '/' '-' (b64encodeList (b0 :: rest))) := by
    show pyReplaceChar '=' '_' (pyReplaceChar '/' '-'
      ('A' :: 'D' :: 'C' :: b64encodeList (b0 :: rest))) = _
    simp [pyReplaceChar]
  have hshift : b0 >>> 2 < 12 ∧ 4 ≤ b0 >>> 2 := by
    rw [shr2_eq]; omega
  unfold Decoder.decodeString Decoder.strippedCode
  rw [hdata2]
  rw [if_neg (by simp [List.isPrefixOf])]
  have hlstrip : pyLstrip
      ('A' :: 'D' :: 'C' ::
        pyReplaceChar '=' '_' (pyReplaceChar '/' '-' (b64encodeList (b0 :: rest))))
      ['A', 'D', 'C'] =
      pyReplaceChar '=' '_' (pyReplaceChar '/' '-' (b64encodeList (b0 :: rest))) := by
    unfold pyLstrip
    rw [htl]
    unfold pyReplaceChar
    simp only [List.map_cons, List.dropWhile_cons]
    rw [if_pos (by decide), if_pos (by decide), if_pos (by decide),
      if_neg (by simpa using firstChar_not_adc (b0 >>> 2) hshift.1 hshift.2)]
  rw [hlstrip]
  have hsubs : pyReplaceChar '_' '=' (pyReplaceChar '-' '/'
      (pyReplaceChar '=' '_' (pyReplaceChar '/' '-' (b64encodeList (b0 :: rest))))) =
      b64encodeList (b0 :: rest) := by
    unfold pyReplaceChar
    rw [List.map_map, List.map_map, List.map_map]
    refine Eq.trans (List.map_congr_left ?_) (List.map_id _)
    intro ch hch
    simp only [Function.comp_apply, id_eq]
    rcases hchars ch hch with ⟨m, hm, rfl⟩ | rfl
    · exact unsub_sub_b64Char m hm
    · exact unsub_sub_eqChar
  rw [hsubs]
  rw [pyB64decode_b64encode (b0 :: rest) hbytes]
  dsimp only []
  rw [if_neg (by simp)]

/-! ### Checksum enforcement (C6) -/

theorem pyGet_ok {l : List Nat} {i x : Nat} (h : pyGet l i = .ok x) :
    l.get? i = some x := by
  unfold pyGet at h
  cases hg : l.get? i with
  | none => rw [hg] at h; cases h
  | some y => rw [hg] at h; cases h; rfl

theorem pyGet_of_get? {l : List Nat} {i x : Nat} (h : l.get? i = some x) :
    pyGet l i = .ok x := by
  unfold pyGet
  rw [h]

theorem and255_eq (x : Nat) : x &&& 255 = x % 256 := by
  have h := Nat.and_pow_two_sub_one_eq_mod x 8
  norm_num at h
  exact h

theorem sum_set_add (l : List Nat) :
    ∀ (i w bi : Nat), l.get? i = some bi → (l.set i w).sum + bi = l.sum + w := by
  induction l with
  | nil => intro i w bi h; cases h
  | cons a rest ih =>
    intro i w bi h
    cases i with
    | zero =>
      simp only [List.get?] at h
      cases h
      simp [List.set]
      omega
    | succ j =>
      simp only [List.get?] at h
      have := ih j w bi h
      simp [List.set]
      omega

theorem mem_set_of (l : List Nat) :
    ∀ (i w x : Nat), x ∈ l.set i w → x ∈ l ∨ x = w := by
  induction l with
  | nil => intro i w x h; cases h
  | cons a rest ih =>
    intro i w x h
    cases i with
    | zero =>
      simp only [List.set] at h
      rcases List.mem_cons.mp h with rfl | h2
      · exact Or.inr rfl
      · exact Or.inl (List.mem_cons_of_mem _ h2)
    | succ j =>
      simp only [List.set] at h
      rcases List.mem_cons.mp h with rfl | h2
      · exact Or.inl (List.mem_cons_self _ _)
      · rcases ih j w x h2 with h3 | h3
        · exact Or.inl (List.mem_cons_of_mem _ h3)
        · exact Or.inr h3

theorem b64IndexOf_lt {c : Char} {v : Nat} (h : b64IndexOf c = some v) : v < 64 := by
  unfold b64IndexOf at h
  split at h
  · cases h
    rename_i hc
    have h3 : c.toNat ≤ 90 := by rw [Char.le_def] at hc; exact hc.2
    omega
  · split at h
    · cases h
      rename_i hc
      have h3 : c.toNat ≤ 122 := by rw [Char.le_def] at hc; exact hc.2
      omega
    · split at h
      · cases h
        rename_i hc
        have h3 : c.toNat ≤ 57 := by rw [Char.le_def] at hc; exact hc.2
        omega
      · split at h
        · cases h; omega
        · split at h
          · cases h; omega
          · cases h

/-- Upper bound on the accumulator entering each quad position of
`a2bLoop` (starting from `leftchar = 0`). -/
def lcBound : Nat → Nat
  | 0 => 1
  | 1 => 64
  | 2 => 16
  | _ => 4

theorem a2bLoop_lt (s : List Char) :
    ∀ q l p bs, l < lcBound q → a2bLoop s q l p = .ok bs →
      ∀ x ∈ bs, x < 256 := by
  induction s with
  | nil =>
    intro q l p bs _ h x hx
    unfold a2bLoop at h
    split at h
    · cases h; cases hx
    · cases h
  | cons c rest ih =>
    intro q l p bs hl h x hx
    unfold a2bLoop at h
    by_cases hc : c = '='
    · rw [if_pos hc] at h
      by_cases hq2 : 2 ≤ q
      · rw [if_pos hq2] at h
        by_cases hq4 : 4 ≤ q + (p + 1)
        · rw [if_pos hq4] at h; cases h; cases hx
        · rw [if_neg hq4] at h; exact ih q l (p + 1) bs hl h x hx
      · rw [if_neg hq2] at h; exact ih q l p bs hl h x hx
    · rw [if_neg hc] at h
      cases hidx : b64IndexOf c with
      | none => rw [hidx] at h; exact ih q l p bs hl h x hx
      | some v =>
        rw [hidx] at h
        have hv := b64IndexOf_lt hidx
        have hacc : (l <<< 6) ||| v < lcBound q * 64 := by
          have h1 : (l <<< 6) ||| v = v + l * 64 := by
            have := lor_shiftLeft_eq_add (a := v) (b := l) (s := 6) (by omega)
            rw [Nat.lor_comm] at this
            simpa [Nat.shiftLeft_eq] using this
          rw [h1]; omega
        match q with
        | 0 =>
          dsimp only [] at h
          exact ih 1 _ 0 bs (by simpa [lcBound] using hacc) h x hx
        | 1 =>
          dsimp only [] at h
          cases hr : a2bLoop rest 2 ((l <<< 6 ||| v) &&& 15) 0 with
          | error e => rw [hr] at h; cases h
          | ok tl =>
            rw [hr] at h
            have htl : bs = (l <<< 6 ||| v) >>> 4 :: tl := by
              have : b64Cons ((l <<< 6 ||| v) >>> 4) (.ok tl) =
                  .ok (((l <<< 6 ||| v) >>> 4) :: tl) := rfl
              rw [this] at h; cases h; rfl
            subst htl
            rcases List.mem_cons.mp hx with rfl | hx2
            · have : lcBound 1 * 64 = 4096 := rfl
              rw [this] at hacc
              rw [Nat.shiftRight_eq_div_pow]
              omega
            · refine ih 2 _ 0 tl ?_ hr x hx2
              have : (l <<< 6 ||| v) &&& 15 = (l <<< 6 ||| v) % 16 := by
                have := Nat.and_pow_two_sub_one_eq_mod (l <<< 6 ||| v) 4
                norm_num at this
                exact this
              rw [this]
              simp [lcBound]
              omega
        | 2 =>
          dsimp only [] at h
          cases hr : a2bLoop rest 3 ((l <<< 6 ||| v) &&& 3) 0 with
          | error e => rw [hr] at h; cases h
          | ok tl =>
            rw [hr] at h
            have htl : bs = (l <<< 6 ||| v) >>> 2 :: tl := by
              have : b64Cons ((l <<< 6 ||| v) >>> 2) (.ok tl) =
                  .ok (((l <<< 6 ||| v) >>> 2) :: tl) := rfl
              rw [this] at h; cases h; rfl
            subst htl
            rcases List.mem_cons.mp hx with rfl | hx2
            · have : lcBound 2 * 64 = 1024 := rfl
              rw [this] at hacc
              rw [Nat.shiftRight_eq_div_pow]
              omega
            · refine ih 3 _ 0 tl ?_ hr x hx2
              have : (l <<< 6 ||| v) &&& 3 = (l <<< 6 ||| v) % 4 := by
                have := Nat.and_pow_two_sub_one_eq_mod (l <<< 6 ||| v) 2
                norm_num at this
                exact this
              rw [this]
              simp [lcBound]
              omega
        | (n + 3) =>
          dsimp only [] at h
          cases hr : a2bLoop rest 0 0 0 with
          | error e => rw [hr] at h; cases h
          | ok tl =>
            rw [hr] at h
            have htl : bs = (l <<< 6 ||| v) :: tl := by
              have : b64Cons (l <<< 6 ||| v) (.ok tl) =
                  .ok ((l <<< 6 ||| v) :: tl) := rfl
              rw [this] at h; cases h; rfl
            subst htl
            rcases List.mem_cons.mp hx with rfl | hx2
            · have hb : lcBound (n + 3) = 4 := rfl
              rw [hb] at hl
              omega
            · exact ih 0 0 0 tl (by simp [lcBound]) hr x hx2

theorem decodeString_bytes_lt {s : String} {b : List Nat}
    (h : Decoder.decodeString s = .ok b) : ∀ x ∈ b, x < 256 := by
  unfold Decoder.decodeString at h
  split at h
  · cases h
  · cases hd : pyB64decode
        (pyReplaceChar '_' '=' (pyReplaceChar '-' '/' (Decoder.strippedCode s))) with
    | error e => rw [hd] at h; cases h
    | ok decoded =>
      rw [hd] at h
      dsimp only [] at h
      split at h
      · cases h
      · cases h
        unfold pyB64decode at hd
        split at hd
        · exact a2bLoop_lt _ 0 0 0 _ (by simp [lcBound]) hd
        · cases hd

theorem pySlice_set_sum (b : List Nat) (st i w bi : Nat) (tot : Int)
    (hst : st ≤ i) (hit : (i : Int) < tot) (htl : tot ≤ (b.length : Int))
    (hbi : b.get? i = some bi) :
    (pySlice (b.set i w) st tot).sum + bi = (pySlice b st tot).sum + w := by
  have h0tot : 0 ≤ tot := le_trans (by omega) (le_of_lt hit)
  have hiT : i < tot.toNat := by omega
  have hstop : pySliceStop (b.set i w).length tot = tot.toNat := by
    rw [List.length_set]
    unfold pySliceStop
    rw [if_neg (by omega)]
    omega
  have hstop2 : pySliceStop b.length tot = tot.toNat := by
    unfold pySliceStop
    rw [if_neg (by omega)]
    omega
  unfold pySlice
  rw [hstop, hstop2, List.set_take, List.drop_set, if_neg (by omega)]
  refine sum_set_add _ (i - st) w bi ?_
  rw [List.get?_drop]
  have hadd : st + (i - st) = i := by omega
  rw [hadd, List.get?_take hiT]
  exact hbi

theorem getVersionAndHeroes_ok_inv {binary : List Nat} {vh version : Nat}
    (h : Decoder.getVersionAndHeroes binary = .ok (vh, version)) :
    binary.get? 0 = some vh ∧ version = vh >>> 4 ∧
      (vh >>> 4 = 1 ∨ vh >>> 4 = 2) := by
  unfold Decoder.getVersionAndHeroes at h
  cases hg : pyGet binary 0 with
  | error e => rw [hg] at h; cases h
  | ok x =>
    rw [hg] at h
    dsimp only [] at h
    split at h
    · cases h
    · rename_i hver
      injection h with h2
      rw [Prod.mk.injEq] at h2
      obtain ⟨rfl, rfl⟩ := h2
      refine ⟨pyGet_ok hg, rfl, ?_⟩
      simpa using not_not.mp hver

theorem getVersionAndHeroes_of (binary : List Nat) (vh : Nat)
    (h0 : binary.get? 0 = some vh) (hver : vh >>> 4 = 1 ∨ vh >>> 4 = 2) :
    Decoder.getVersionAndHeroes binary = .ok (vh, vh >>> 4) := by
  have hmem : vh >>> 4 ∈ [1, 2] := by
    rcases hver with h | h <;> simp [h]
  unfold Decoder.getVersionAndHeroes
  rw [pyGet_of_get? h0]
  dsimp only []
  rw [if_neg (not_not_intro hmem)]

theorem getLengthsAndChecksum_ok_inv {binary : List Nat} {version nl st : Nat}
    {tot : Int}
    (h : Decoder.getLengthsAndChecksum binary version = .ok (nl, st, tot)) :
    ∃ b2 s1, binary.get? 2 = some b2 ∧ binary.get? 1 = some s1 ∧
      nl = (if version = 1 then 0 else b2) ∧
      st = (if version = 1 then 2 else 3) ∧
      tot = (binary.length : Int) - (nl : Int) ∧
      s1 = ((pySlice binary st tot).sum &&& 255) := by
  unfold Decoder.getLengthsAndChecksum at h
  cases hg2 : pyGet binary 2 with
  | error e => rw [hg2] at h; cases h
  | ok b2 =>
    rw [hg2] at h
    dsimp only [] at h
    cases hg1 : pyGet binary 1 with
    | error e => rw [hg1] at h; cases h
    | ok s1 =>
      rw [hg1] at h
      dsimp only [] at h
      by_cases hv1 : version = 1
      · simp only [if_pos hv1] at h
        split at h
        · cases h
        · rename_i hck
          injection h with h2
          rw [Prod.mk.injEq, Prod.mk.injEq] at h2
          obtain ⟨rfl, rfl, rfl⟩ := h2
          exact ⟨b2, s1, pyGet_ok hg2, pyGet_ok hg1, by rw [if_pos hv1],
            by rw [if_pos hv1], rfl, not_not.mp hck⟩
      · simp only [if_neg hv1] at h
        split at h
        · cases h
        · rename_i hck
          injection h with h2
          rw [Prod.mk.injEq, Prod.mk.injEq] at h2
          obtain ⟨rfl, rfl, rfl⟩ := h2
          exact ⟨b2, s1, pyGet_ok hg2, pyGet_ok hg1, by rw [if_neg hv1],
            by rw [if_neg hv1], rfl, not_not.mp hck⟩

theorem getLengthsAndChecksum_mismatch (binary : List Nat) (version b2 s1 : Nat)
    (h2 : binary.get? 2 = some b2) (h1 : binary.get? 1 = some s1)
    (hne : s1 ≠ ((pySlice binary (if version = 1 then 2 else 3)
        ((binary.length : Int) - (↑(if version = 1 then (0 : Nat) else b2) : Int))).sum
        &&& 255)) :
    Decoder.getLengthsAndChecksum binary version =
      .error (.invalidDeckString "Checksum doesn't check out") := by
  unfold Decoder.getLengthsAndChecksum
  rw [pyGet_of_get? h2]
  dsimp only []
  rw [pyGet_of_get? h1]
  dsimp only []
  rw [if_pos hne]

theorem decodeBinary_err_of (binary : List Nat) (vh version : Nat) (e : PyErr)
    (hv : Decoder.getVersionAndHeroes binary = .ok (vh, version))
    (hl : Decoder.getLengthsAndChecksum binary version = .error e) :
    Decoder.decodeBinary binary = .error e := by
  unfold Decoder.decodeBinary
  rw [hv]
  dsimp only []
  rw [hl]

/-- **C6.** For every deck code that decodes successfully (through the
byte payload `b`), every index `i` in the checksummed span
(`cardBytesStartIndex ≤ i < totalCardBytes`) and every byte value `w`
different from the byte `bi` stored at `i`, replacing byte `i` by `w`
and rebuilding the deck-code string makes `decode_deck_string` fail
with the checksum-mismatch `InvalidDeckString` error: the sum modulo
256 of the card-region bytes no longer equals stored checksum byte 1. -/
theorem claim6_checksum_flip
    (s : String) (b : List Nat) (d : DeckContents)
    (vh v nl st : Nat) (tot : Int) (i w bi : Nat)
    (hs : Decoder.decodeString s = .ok b)
    (hd : Decoder.decodeBinary b = .ok d)
    (hv : Decoder.getVersionAndHeroes b = .ok (vh, v))
    (hl : Decoder.getLengthsAndChecksum b v = .ok (nl, st, tot))
    (hist : st ≤ i) (hitot : (i : Int) < tot)
    (hbi : b.get? i = some bi) (hw : w < 256) (hne : w ≠ bi) :
    decodeDeckString (Encoder.deckStringOfBinary (b.set i w)) =
      .error (.invalidDeckString "Checksum doesn't check out") := by
  have hbytes : ∀ x ∈ b, x < 256 := decodeString_bytes_lt hs
  obtain ⟨h0, hveq, hv12⟩ := getVersionAndHeroes_ok_inv hv
  subst hveq
  obtain ⟨b2, s1, h2, h1, hnl, hstdef, htot, hsum⟩ := getLengthsAndChecksum_ok_inv hl
  have hsh : vh >>> 4 = vh / 16 := by
    rw [Nat.shiftRight_eq_div_pow]
  have h16 : 16 ≤ vh := by rcases hv12 with hx | hx <;> omega
  have h48 : vh < 48 := by rcases hv12 with hx | hx <;> omega
  have hst2 : 2 ≤ st := by rw [hstdef]; split <;> omega
  have hbi256 : bi < 256 := hbytes bi (List.get?_mem hbi)
  obtain ⟨x, brest, rfl⟩ : ∃ x brest, b = x :: brest := by
    cases b with
    | nil => cases h0
    | cons a l => exact ⟨a, l, rfl⟩
  have hx : some x = some vh := h0
  have hx2 : vh = x := by injection hx with hh; exact hh.symm
  subst hx2
  obtain ⟨j, rfl⟩ : ∃ j, i = j + 1 := ⟨i - 1, by omega⟩
  have hj1 : 1 ≤ j := by omega
  have h2m : brest.get? 1 = some b2 := h2
  have h1m : brest.get? 0 = some s1 := h1
  have hbim : brest.get? j = some bi := hbi
  have hbytes' : ∀ y ∈ vh :: brest.set j w, y < 256 := by
    intro y hy
    rcases List.mem_cons.mp hy with rfl | hy2
    · exact hbytes _ (List.mem_cons_self _ _)
    · rcases mem_set_of _ _ _ _ hy2 with h3 | rfl
      · exact hbytes _ (List.mem_cons_of_mem _ h3)
      · exact hw
  have hds := decodeString_deckStringOfBinary vh (brest.set j w) hbytes' h16 h48
  rw [List.set_cons_succ]
  unfold decodeDeckString
  rw [hds]
  dsimp only []
  have h0' : (vh :: brest.set j w).get? 0 = some vh := rfl
  have hv' := getVersionAndHeroes_of (vh :: brest.set j w) vh h0' hv12
  have h2' : (brest.set j w).get? 1 = some (if j = 1 then w else b2) := by
    by_cases hj : j = 1
    · subst hj
      rw [if_pos rfl]
      have hlen : 1 < brest.length := by
        by_contra hc
        push_neg at hc
        rw [List.get?_eq_none.mpr hc] at h2m
        cases h2m
      exact List.get?_set_eq_of_lt w hlen
    · rw [if_neg hj, List.get?_set_ne w brest hj]
      exact h2m
  have h1' : (brest.set j w).get? 0 = some s1 := by
    rw [List.get?_set_ne w brest (by omega)]
    exact h1m
  have hnl' : (if vh >>> 4 = 1 then (0 : Nat) else (if j = 1 then w else b2)) = nl := by
    by_cases hv1 : vh >>> 4 = 1
    · rw [if_pos hv1, hnl, if_pos hv1]
    · have hst3 : st = 3 := by rw [hstdef, if_neg hv1]
      have hj2 : j ≠ 1 := by omega
      rw [if_neg hv1, if_neg hj2, hnl, if_neg hv1]
  have htotlen : tot ≤ (((vh :: brest) : List Nat).length : Int) := by
    rw [htot]
    have hnn : (0 : Int) ≤ (nl : Int) := by omega
    omega
  have hslice := pySlice_set_sum (vh :: brest) st (j + 1) w bi tot hist hitot htotlen hbi
  rw [List.set_cons_succ] at hslice
  have hlen' : (((vh :: brest.set j w) : List Nat).length : Int) =
      (((vh :: brest) : List Nat).length : Int) := by
    simp [List.length_set]
  have hne'' : s1 ≠ ((pySlice (vh :: brest.set j w) (if vh >>> 4 = 1 then 2 else 3)
      ((((vh :: brest.set j w) : List Nat).length : Int) -
        (↑(if vh >>> 4 = 1 then (0 : Nat) else (if j = 1 then w else b2)) : Int))).sum
      &&& 255) := by
    rw [hnl', ← hstdef, hlen', ← htot, and255_eq]
    intro hcontra
    have hs1 : s1 = (pySlice (vh :: brest) st tot).sum % 256 := by
      rw [hsum, and255_eq]
    omega
  exact decodeBinary_err_of _ vh (vh >>> 4) _ hv'
    (getLengthsAndChecksum_mismatch _ _ _ _ h2' h1' hne'')

set_option maxRecDepth 10000 in
theorem claim6_witness :
    Decoder.decodeString (Encoder.deckStringOfBinary [32, 0, 0, 0]) =
      .ok [32, 0, 0, 0] ∧
    decodeDeckString (Encoder.deckStringOfBinary (([32, 0, 0, 0] : List Nat).set 3 5)) =
      .error (.invalidDeckString "Checksum doesn't check out") :=
  ⟨by decide,
   claim6_checksum_flip (Encoder.deckStringOfBinary [32, 0, 0, 0]) [32, 0, 0, 0]
     ⟨"", [], [⟨0, 1⟩]⟩ 32 2 0 3 4 3 5 0
     (by decide) (by decide) (by decide) (by decide) (by decide) (by decide)
     (by decide) (by decide) (by decide)⟩

/-! ### Round trip (C1) -/

theorem and_two_pow_div (x n : Nat) : x &&& 2 ^ n = x / 2 ^ n % 2 * 2 ^ n := by
  have h : x &&& 2 ^ n = (x.testBit n).toNat * 2 ^ n := by
    rw [Nat.and_two_pow]
  rw [h, Nat.testBit_to_div_mod]
  by_cases hb : x / 2 ^ n % 2 = 1
  · rw [hb]; simp
  · have h0 : x / 2 ^ n % 2 = 0 := by omega
    rw [h0]; simp [hb]

theorem extractNBits_eq_add (v n : Nat) :
    Encoder.extractNBits v n = v % 2 ^ n + (if 2 ^ n ≤ v then 2 ^ n else 0) := by
  have hlor2 : v % 2 ^ n ||| 2 ^ n = v % 2 ^ n + 2 ^ n := by
    have h := lor_shiftLeft_eq_add (a := v % 2 ^ n) 1 n
      (Nat.mod_lt _ (Nat.two_pow_pos n))
    rw [Nat.one_shiftLeft] at h
    simpa using h
  unfold Encoder.extractNBits
  dsimp only []
  rw [Nat.one_shiftLeft, Nat.and_pow_two_sub_one_eq_mod]
  by_cases hle : 2 ^ n ≤ v
  · rw [if_pos hle, if_pos hle, hlor2]
  · rw [if_neg hle, if_neg hle, Nat.add_zero]

theorem extractNBits_lt (v n : Nat) :
    Encoder.extractNBits v n < 2 ^ (n + 1) := by
  rw [extractNBits_eq_add]
  have h1 : v % 2 ^ n < 2 ^ n := Nat.mod_lt _ (Nat.two_pow_pos n)
  have h2 : 2 ^ (n + 1) = 2 * 2 ^ n := by ring
  split <;> omega

theorem chunks7_lt :
    ∀ v, ∀ x ∈ chunks7 v, x < 256 := by
  intro v
  induction v using Nat.strong_induction_on with
  | _ v ih =>
    intro x hx
    rw [chunks7_eq] at hx
    split at hx
    · cases hx
    · rename_i hv
      rcases List.mem_cons.mp hx with rfl | hx2
      · have := extractNBits_lt v 7
        norm_num at this
        omega
      · exact ih (v >>> 7) (shiftRight7_lt (by omega)) x hx2

theorem chunks7_length_le :
    ∀ (k v : Nat), v < 2 ^ (7 * k) → (chunks7 v).length ≤ k := by
  intro k
  induction k with
  | zero =>
    intro v hv
    norm_num at hv
    subst hv
    rw [chunks7_zero]
    simp
  | succ k ih =>
    intro v hv
    rcases Nat.eq_zero_or_pos v with h0 | hpos
    · subst h0; rw [chunks7_zero]; simp
    · rw [chunks7_pos hpos]
      have hdiv : v >>> 7 < 2 ^ (7 * k) := by
        rw [Nat.shiftRight_eq_div_pow]
        have h128 : 2 ^ (7 * (k + 1)) = 2 ^ (7 * k) * 2 ^ 7 := by
          rw [← pow_add]; ring_nf
        rw [Nat.div_lt_iff_lt_mul (by norm_num : 0 < 2 ^ 7)]
        omega
      have := ih (v >>> 7) hdiv
      simpa using Nat.succ_le_succ this

/-- The bytes `_add_card` appends for one entry: header byte, the
continuation chunks of the 5-bit varint for the id delta, and (when the
2-bit count field saturates) the full varint of the count. -/
def entryBytes (countOrTurn value : Nat) : List Nat :=
  (((if 3 ≤ countOrTurn - 1 then 3 else countOrTurn - 1) <<< 6) |||
      Encoder.extractNBits value 5) ::
    (chunks7 (value >>> 5) ++
      (if 3 ≤ countOrTurn - 1 then chunks7 countOrTurn else []))

/-- The bytes the `_encode` loops append for a list of
`(count_or_turn, id)` pairs, given the previous card id base. -/
def entriesBytes : List (Nat × Nat) → Nat → List Nat
  | [], _ => []
  | (c, id) :: rest, prev => entryBytes c (id - prev) ++ entriesBytes rest id

theorem entryBytes_length_le (c v : Nat) (hc : c < 2 ^ 32) (hv : v < 2 ^ 32) :
    (entryBytes c v).length ≤ 10 := by
  unfold entryBytes
  have h1 : (chunks7 (v >>> 5)).length ≤ 4 := by
    refine chunks7_length_le 4 _ ?_
    rw [Nat.shiftRight_eq_div_pow]
    have : v / 2 ^ 5 < 2 ^ 27 := by
      rw [Nat.div_lt_iff_lt_mul (by norm_num : 0 < 2 ^ 5)]
      norm_num
      omega
    norm_num at this ⊢
    omega
  have h2 : (chunks7 c).length ≤ 5 := by
    refine chunks7_length_le 5 _ ?_
    norm_num
    omega
  simp only [List.length_cons, List.length_append]
  split <;> simp <;> omega

theorem entryBytes_length_pos (c v : Nat) : 1 ≤ (entryBytes c v).length := by
  unfold entryBytes
  simp

theorem entryBytes_lt (c v : Nat) : ∀ x ∈ entryBytes c v, x < 256 := by
  intro x hx
  unfold entryBytes at hx
  have he5 : Encoder.extractNBits v 5 < 64 := by
    have := extractNBits_lt v 5
    norm_num at this
    exact this
  rcases List.mem_cons.mp hx with rfl | hx2
  · set fc := (if 3 ≤ c - 1 then 3 else c - 1) with hfc
    have hfc3 : fc ≤ 3 := by rw [hfc]; split <;> omega
    have hlor : (fc <<< 6) ||| Encoder.extractNBits v 5 =
        Encoder.extractNBits v 5 + fc * 2 ^ 6 := by
      rw [Nat.lor_comm]
      exact lor_shiftLeft_eq_add fc 6 (by norm_num; omega)
    rw [hlor]
    norm_num
    omega
  · rcases List.mem_append.mp hx2 with h3 | h3
    · exact chunks7_lt _ x h3
    · split at h3
      · exact chunks7_lt _ x h3
      · cases h3

theorem pyAppend_ok (l : List Nat) (b : Nat) (h : b < 256) :
    pyAppend l b = .ok (l ++ [b]) := by
  unfold pyAppend
  rw [if_pos h]

theorem pyExtend_ok :
    ∀ (bs l : List Nat), (∀ b ∈ bs, b < 256) →
      pyExtend l bs = .ok (l ++ bs) := by
  intro bs
  induction bs with
  | nil => intro l _; simp [pyExtend]
  | cons b rest ih =>
    intro l hb
    unfold pyExtend
    rw [pyAppend_ok l b (hb b (List.mem_cons_self _ _))]
    dsimp only []
    rw [ih (l ++ [b]) (fun x hx => hb x (List.mem_cons_of_mem _ hx))]
    simp

theorem addCard_ok (binary : List Nat) (c v : Nat)
    (hlen : (entryBytes c v).length ≤ 11) :
    Encoder.addCard binary c v = .ok (binary ++ entryBytes c v) := by
  have he5 : Encoder.extractNBits v 5 < 64 := by
    have := extractNBits_lt v 5
    norm_num at this
    exact this
  have hfb : ((if 3 ≤ c - 1 then 3 else c - 1) <<< 6) |||
      Encoder.extractNBits v 5 < 256 :=
    entryBytes_lt c v _ (by unfold entryBytes; exact List.mem_cons_self _ _)
  unfold Encoder.addCard
  dsimp only []
  rw [pyAppend_ok _ _ hfb]
  dsimp only []
  rw [addRemainingBitsFromNumber_eq,
    pyExtend_ok (chunks7 (v >>> 5)) _ (chunks7_lt _)]
  dsimp only []
  by_cases hext : 3 ≤ c - 1
  · rw [if_pos hext, addRemainingBitsFromNumber_eq, Nat.shiftRight_zero,
      pyExtend_ok (chunks7 c) _ (chunks7_lt _)]
    dsimp only []
    rw [if_neg]
    · unfold entryBytes
      rw [if_pos hext, if_pos hext]
      simp
    · unfold entryBytes at hlen
      rw [if_pos hext, if_pos hext] at hlen
      simp only [List.length_cons, List.length_append, List.length_nil] at hlen ⊢
      omega
  · rw [if_neg hext]
    dsimp only []
    rw [if_neg]
    · unfold entryBytes
      rw [if_neg hext, if_neg hext]
      simp
    · unfold entryBytes at hlen
      rw [if_neg hext, if_neg hext] at hlen
      simp only [List.length_cons, List.length_append, List.length_nil] at hlen ⊢
      omega

theorem addEntries_ok :
    ∀ (pairs : List (Nat × Nat)) (binary : List Nat) (prev : Nat),
      (∀ p ∈ pairs, p.1 < 2 ^ 32 ∧ p.2 < 2 ^ 32) →
      Encoder.addEntries binary pairs prev =
        .ok (binary ++ entriesBytes pairs prev) := by
  intro pairs
  induction pairs with
  | nil => intro binary prev _; simp [Encoder.addEntries, entriesBytes]
  | cons p rest ih =>
    intro binary prev hb
    obtain ⟨c, id⟩ := p
    have hc := (hb (c, id) (List.mem_cons_self _ _)).1
    have hid := (hb (c, id) (List.mem_cons_self _ _)).2
    unfold Encoder.addEntries
    rw [addCard_ok binary c (id - prev)
      (le_trans (entryBytes_length_le c (id - prev) hc (by omega)) (by norm_num))]
    dsimp only []
    rw [ih _ id (fun q hq => hb q (List.mem_cons_of_mem _ hq))]
    have hcons : entriesBytes ((c, id) :: rest) prev =
        entryBytes c (id - prev) ++ entriesBytes rest id := rfl
    rw [hcons]
    simp [List.append_assoc]

theorem strEncodeUtf8_ascii (s : List Char) (h : ∀ c ∈ s, c.toNat < 128) :
    strEncodeUtf8 s = s.map (fun c => c.toNat) := by
  induction s with
  | nil => rfl
  | cons c rest ih =>
    have hc := h c (List.mem_cons_self _ _)
    have hrest := ih (fun x hx => h x (List.mem_cons_of_mem _ hx))
    unfold strEncodeUtf8 at hrest ⊢
    simp only [List.map_cons, List.flatten_cons]
    rw [hrest]
    unfold utf8EncodeChar
    dsimp only []
    rw [if_pos hc]
    simp

theorem bytesDecodeUtf8Go_ascii :
    ∀ (s : List Char) (fuel : Nat), s.length ≤ fuel →
      (∀ c ∈ s, c.toNat < 128) →
      bytesDecodeUtf8Go fuel (s.map fun c => c.toNat) = .ok s := by
  intro s
  induction s with
  | nil =>
    intro fuel _ _
    cases fuel <;> rfl
  | cons c rest ih =>
    intro fuel hf hascii
    obtain ⟨f, rfl⟩ : ∃ f, fuel = f + 1 := ⟨fuel - 1, by simp at hf; omega⟩
    have hmap : (c :: rest).map (fun c => c.toNat) =
        c.toNat :: rest.map (fun c => c.toNat) := rfl
    rw [hmap, bytesDecodeUtf8Go_succ, if_pos (hascii c (List.mem_cons_self _ _))]
    rw [ih f (by simp at hf; omega) (fun x hx => hascii x (List.mem_cons_of_mem _ hx))]
    have hchar : Char.ofNat c.toNat = c := Char.ofNat_toNat c
    simp [Except.map, hchar]

theorem bytesDecodeUtf8_ascii (s : List Char) (h : ∀ c ∈ s, c.toNat < 128) :
    bytesDecodeUtf8 (s.map fun c => c.toNat) = .ok s := by
  unfold bytesDecodeUtf8
  rw [List.length_map]
  exact bytesDecodeUtf8Go_ascii s s.length le_rfl h

theorem pySlice_header (a b c : Nat) (body post : List Nat) (stop : Int)
    (hstop : stop = 3 + (body.length : Int)) :
    pySlice (a :: b :: c :: (body ++ post)) 3 stop = body := by
  unfold pySlice pySliceStop
  rw [hstop, if_neg (by omega)]
  have hlen : (a :: b :: c :: (body ++ post)).length =
      3 + body.length + post.length := by simp; omega
  have htn : ((3 : Int) + (body.length : Int)).toNat = 3 + body.length := by omega
  rw [htn, hlen]
  rw [min_eq_left (by omega)]
  have htake : (a :: b :: c :: (body ++ post)).take (3 + body.length) =
      a :: b :: c :: body := by
    have h3 : 3 + body.length = ((body.length + 1) + 1) + 1 := by omega
    rw [h3, List.take_succ_cons, List.take_succ_cons, List.take_succ_cons,
      List.take_left]
  rw [htake]
  rfl

theorem pySlice_header3 (a b c a2 b2 c2 : Nat) (x y z post : List Nat) :
    pySlice (a :: b :: c :: (x ++ (y ++ (z ++ post)))) 3
      (((a2 :: b2 :: c2 :: (x ++ (y ++ z))).length : Nat) : Int) = x ++ (y ++ z) := by
  have h1 : x ++ (y ++ (z ++ post)) = (x ++ (y ++ z)) ++ post := by
    simp [List.append_assoc]
  rw [h1]
  refine pySlice_header a b c (x ++ (y ++ z)) post _ ?_
  simp
  ring

theorem set1_cons (a b c w : Nat) (rest : List Nat) :
    (a :: b :: c :: rest).set 1 w = a :: w :: c :: rest := rfl

theorem encodeBinary_eq (dc : DeckContents) (H : List HeroEntry)
    (C : List CardEntry) (body : List Nat)
    (hH : List.insertionSort (fun a b => a.id ≤ b.id) dc.heroes = H)
    (hC : List.insertionSort (fun a b => a.id ≤ b.id) dc.cards = C)
    (hbody : chunks7 (H.length >>> 3) ++
      (entriesBytes (H.map fun h => (h.turn, h.id)) 0 ++
        entriesBytes (C.map fun cd => (cd.count, cd.id)) 0) = body)
    (hname_len : dc.name.data.length ≤ 63)
    (hname_tags : reSubTags dc.name.data = dc.name.data)
    (hascii : ∀ c ∈ dc.name.data, c.toNat < 128)
    (hH32 : ∀ h ∈ H, h.turn < 2 ^ 32 ∧ h.id < 2 ^ 32)
    (hC32 : ∀ c ∈ C, c.count < 2 ^ 32 ∧ c.id < 2 ^ 32) :
    Encoder.encodeBinary dc 2 = .ok
      ((((2 <<< 4) ||| Encoder.extractNBits H.length 3) ::
        (body.sum &&& 255) :: dc.name.data.length :: body) ++
        (dc.name.data.map fun c => c.toNat)) := by
  have hnm : Encoder.encoderName dc = dc.name.data := by
    unfold Encoder.encoderName
    rw [List.take_of_length_le hname_len, hname_tags]
  have hvB256 : (2 <<< 4) ||| Encoder.extractNBits H.length 3 < 256 := by
    have he3 : Encoder.extractNBits H.length 3 < 16 := by
      have := extractNBits_lt H.length 3
      norm_num at this
      exact this
    rw [Nat.lor_comm]
    have h := lor_shiftLeft_eq_add (a := Encoder.extractNBits H.length 3) 2 4
      (by omega)
    rw [h]
    norm_num
    omega
  have hmapH : ∀ p ∈ H.map fun h => (h.turn, h.id),
      p.1 < 2 ^ 32 ∧ p.2 < 2 ^ 32 := by
    intro p hp
    obtain ⟨h, hh, rfl⟩ := List.mem_map.mp hp
    exact ⟨(hH32 h hh).1, (hH32 h hh).2⟩
  have hmapC : ∀ p ∈ C.map fun cd => (cd.count, cd.id),
      p.1 < 2 ^ 32 ∧ p.2 < 2 ^ 32 := by
    intro p hp
    obtain ⟨cd, hc2, rfl⟩ := List.mem_map.mp hp
    exact ⟨(hC32 cd hc2).1, (hC32 cd hc2).2⟩
  have hnmb : ∀ b ∈ dc.name.data.map fun c => c.toNat, b < 256 := by
    intro b hb
    obtain ⟨c, hc, rfl⟩ := List.mem_map.mp hb
    have := hascii c hc
    omega
  unfold Encoder.encodeBinary
  dsimp only []
  rw [hH, hC, hnm]
  rw [pyAppend_ok [] _ hvB256]
  dsimp only []
  rw [pyAppend_ok _ 0 (by norm_num)]
  dsimp only []
  rw [pyAppend_ok _ dc.name.data.length (by omega)]
  dsimp only []
  rw [addRemainingBitsFromNumber_eq, pyExtend_ok _ _ (chunks7_lt _)]
  dsimp only []
  rw [addEntries_ok _ _ 0 hmapH]
  dsimp only []
  rw [addEntries_ok _ _ 0 hmapC]
  dsimp only []
  rw [strEncodeUtf8_ascii dc.name.data hascii]
  rw [pyExtend_ok _ _ hnmb]
  dsimp only []
  simp only [List.nil_append, List.cons_append, List.append_assoc,
    Encoder.headerSize, List.length_singleton]
  rw [pySlice_header3, set1_cons, ← hbody]
  simp [List.append_assoc]

theorem header_decomp (c v : Nat) :
    ((if 3 ≤ c - 1 then 3 else c - 1) <<< 6) ||| Encoder.extractNBits v 5 =
      Encoder.extractNBits v 5 + (if 3 ≤ c - 1 then 3 else c - 1) * 64 := by
  have he5 : Encoder.extractNBits v 5 < 64 := by
    have := extractNBits_lt v 5
    norm_num at this
    exact this
  rw [Nat.lor_comm]
  have h := lor_shiftLeft_eq_add (a := Encoder.extractNBits v 5)
    (if 3 ≤ c - 1 then 3 else c - 1) 6 (by omega)
  rw [h]
  norm_num

theorem header_linear (c v : Nat) :
    ((if 3 ≤ c - 1 then 3 else c - 1) <<< 6) ||| Encoder.extractNBits v 5 =
      v % 32 + (if 32 ≤ v then 32 else 0) +
        (if 3 ≤ c - 1 then 3 else c - 1) * 64 := by
  rw [header_decomp]
  have he := extractNBits_eq_add v 5
  norm_num at he
  rw [he]

theorem header_low (c v : Nat) :
    (((if 3 ≤ c - 1 then 3 else c - 1) <<< 6) |||
      Encoder.extractNBits v 5) &&& (2 ^ 5 - 1) = v % 2 ^ 5 := by
  have hmod : ∀ x : Nat, x &&& (2 ^ 5 - 1) = x % 2 ^ 5 := fun x =>
    Nat.and_pow_two_sub_one_eq_mod x 5
  rw [hmod, header_linear]
  norm_num
  by_cases h32 : 32 ≤ v
  · rw [if_pos h32]
    split <;> omega
  · rw [if_neg h32]
    split <;> omega

theorem header_flag (c v : Nat) :
    ((((if 3 ≤ c - 1 then 3 else c - 1) <<< 6) |||
      Encoder.extractNBits v 5) &&& 2 ^ 5 ≠ 0) ↔ (2 ^ 5 ≤ v) := by
  rw [and_two_pow_div, header_linear]
  norm_num
  by_cases h32 : 32 ≤ v
  · rw [if_pos h32]
    constructor
    · intro _; exact h32
    · intro _
      split <;> omega
  · rw [if_neg h32]
    constructor
    · intro h
      exfalso
      split at h <;> omega
    · intro h; omega

theorem header_shr6 (c v : Nat) :
    (((if 3 ≤ c - 1 then 3 else c - 1) <<< 6) |||
      Encoder.extractNBits v 5) >>> 6 = (if 3 ≤ c - 1 then 3 else c - 1) := by
  rw [shr6_eq, header_linear]
  by_cases h32 : 32 ≤ v
  · rw [if_pos h32]
    split <;> omega
  · rw [if_neg h32]
    split <;> omega

theorem readSerializedCard_ok (B : List Nat) (tot : Int) (c v prev : Nat)
    (pre post : List Nat) (hc1 : 1 ≤ c)
    (hbin : B = pre ++ entryBytes c v ++ post)
    (hspace : (pre.length : Int) + ((entryBytes c v).length : Int) ≤ tot + 1) :
    Decoder.readSerializedCard B tot prev pre.length =
      .ok (c, prev + v, pre.length + (entryBytes c v).length) := by
  have heb : entryBytes c v =
      (((if 3 ≤ c - 1 then 3 else c - 1) <<< 6) |||
        Encoder.extractNBits v 5) ::
      (chunks7 (v >>> 5) ++ (if 3 ≤ c - 1 then chunks7 c else [])) := rfl
  have hlen_eb : (entryBytes c v).length =
      1 + (chunks7 (v >>> 5)).length +
        (if 3 ≤ c - 1 then chunks7 c else []).length := by
    rw [heb]
    simp
    omega
  have hlen_pos : 1 ≤ (entryBytes c v).length := entryBytes_length_pos c v
  unfold Decoder.readSerializedCard
  rw [if_neg (by push_cast at hspace ⊢; omega)]
  have hget : B.get? pre.length =
      some (((if 3 ≤ c - 1 then 3 else c - 1) <<< 6) |||
        Encoder.extractNBits v 5) := by
    rw [hbin, heb]
    have h0 := get?_middle pre
      ((((if 3 ≤ c - 1 then 3 else c - 1) <<< 6) |||
        Encoder.extractNBits v 5) ::
        (chunks7 (v >>> 5) ++ (if 3 ≤ c - 1 then chunks7 c else []))) post 0
      (by simp)
    simpa using h0
  rw [pyGet_of_get? hget]
  dsimp only []
  have hbin1 : B = (pre ++ [((if 3 ≤ c - 1 then 3 else c - 1) <<< 6) |||
      Encoder.extractNBits v 5]) ++ chunks7 (v >>> 5) ++
      ((if 3 ≤ c - 1 then chunks7 c else []) ++ post) := by
    rw [hbin, heb]
    simp
  have hrv1 := readVarEncoded_ok B
    (pre ++ [((if 3 ≤ c - 1 then 3 else c - 1) <<< 6) |||
      Encoder.extractNBits v 5])
    ((if 3 ≤ c - 1 then chunks7 c else []) ++ post) tot
    (((if 3 ≤ c - 1 then 3 else c - 1) <<< 6) ||| Encoder.extractNBits v 5)
    5 v (pre.length + 1)
    (header_low c v) (header_flag c v) (fun h => by omega)
    hbin1 (by simp)
    (Or.inr (by
      rw [hlen_eb] at hspace
      push_cast at hspace ⊢
      omega))
  rw [hrv1]
  dsimp only []
  rw [header_shr6]
  by_cases hext : 3 ≤ c - 1
  · rw [if_pos (by rw [if_pos hext])]
    have hrv2eq : Decoder.readVarEncoded B 0 0
        (pre.length + 1 + (chunks7 (v >>> 5)).length) tot =
        Decoder.readVarLoop B tot
          (B.length - (pre.length + 1 + (chunks7 (v >>> 5)).length)) 0 0
          (pre.length + 1 + (chunks7 (v >>> 5)).length) := by
      unfold Decoder.readVarEncoded
      rw [if_pos (Or.inl rfl)]
      rfl
    rw [hrv2eq]
    have hbin2 : B = ((pre ++ [((if 3 ≤ c - 1 then 3 else c - 1) <<< 6) |||
        Encoder.extractNBits v 5]) ++ chunks7 (v >>> 5)) ++ chunks7 c ++ post := by
      have hite : (if 3 ≤ c - 1 then chunks7 c else []) = chunks7 c := if_pos hext
      rw [hbin, heb, hite]
      simp
    have hrl := readVarLoop_ok B tot c hc1 0 0
      (pre.length + 1 + (chunks7 (v >>> 5)).length)
      (B.length - (pre.length + 1 + (chunks7 (v >>> 5)).length))
      ((pre ++ [((if 3 ≤ c - 1 then 3 else c - 1) <<< 6) |||
        Encoder.extractNBits v 5]) ++ chunks7 (v >>> 5)) post
      hbin2 (by simp; omega) (by norm_num)
      (by
        rw [hlen_eb, if_pos hext] at hspace
        push_cast at hspace ⊢
        omega)
      (by
        rw [hbin2]
        simp
        omega)
    rw [hrl]
    dsimp only []
    have h1 : 0 + c * 2 ^ 0 = c := by norm_num
    have h2 : pre.length + 1 + (chunks7 (v >>> 5)).length + (chunks7 c).length =
        pre.length + (entryBytes c v).length := by
      rw [hlen_eb, if_pos hext]
      omega
    rw [h1, h2]
  · rw [if_neg (by rw [if_neg hext]; omega)]
    have h1 : (if 3 ≤ c - 1 then 3 else c - 1) + 1 = c := by
      rw [if_neg hext]
      omega
    have h2 : pre.length + 1 + (chunks7 (v >>> 5)).length =
        pre.length + (entryBytes c v).length := by
      rw [hlen_eb, if_neg hext]
      simp
      omega
    rw [h1, h2]

theorem readHeroesLoop_ok (B : List Nat) (tot : Int) :
    ∀ (hs : List HeroEntry) (prev idx : Nat) (pre post : List Nat),
      (∀ h ∈ hs, 1 ≤ h.turn) →
      List.Chain' (fun a b => a ≤ b) (prev :: hs.map fun h => h.id) →
      B = pre ++ entriesBytes (hs.map fun h => (h.turn, h.id)) prev ++ post →
      idx = pre.length →
      ((idx : Int) +
        ((entriesBytes (hs.map fun h => (h.turn, h.id)) prev).length : Int) ≤
          tot + 1) →
      Decoder.readHeroesLoop B tot hs.length prev idx =
        .ok (hs, idx + (entriesBytes (hs.map fun h => (h.turn, h.id)) prev).length) := by
  intro hs
  induction hs with
  | nil =>
    intro prev idx pre post _ _ _ _ _
    simp [Decoder.readHeroesLoop, entriesBytes]
  | cons h rest ih =>
    intro prev idx pre post hturn hchain hbin hidx hspace
    obtain ⟨hple0, hchain'⟩ := List.chain'_cons.mp hchain
    have hple : prev ≤ h.id := hple0
    have hebcons : entriesBytes ((h :: rest).map fun x => (x.turn, x.id)) prev =
        entryBytes h.turn (h.id - prev) ++
          entriesBytes (rest.map fun x => (x.turn, x.id)) h.id := rfl
    subst hidx
    have hbin1 : B = pre ++ entryBytes h.turn (h.id - prev) ++
        (entriesBytes (rest.map fun x => (x.turn, x.id)) h.id ++ post) := by
      rw [hbin, hebcons]
      simp
    have hread := readSerializedCard_ok B tot h.turn (h.id - prev) prev pre
      (entriesBytes (rest.map fun x => (x.turn, x.id)) h.id ++ post)
      (hturn h (List.mem_cons_self _ _)) hbin1
      (by
        rw [hebcons] at hspace
        rw [List.length_append] at hspace
        push_cast at hspace ⊢
        omega)
    have hid : prev + (h.id - prev) = h.id := by omega
    rw [hid] at hread
    have hstep : Decoder.readHeroesLoop B tot (rest.length + 1) prev pre.length =
        match Decoder.readSerializedCard B tot prev pre.length with
        | .error e => .error e
        | .ok (heroTurn, heroCardId, index1) =>
          match Decoder.readHeroesLoop B tot rest.length heroCardId index1 with
          | .error e => .error e
          | .ok (r, finalIndex) =>
            .ok (⟨heroCardId, heroTurn⟩ :: r, finalIndex) := rfl
    have hL : (h :: rest).length = rest.length + 1 := rfl
    rw [hL, hstep, hread]
    dsimp only []
    rw [ih h.id (pre.length + (entryBytes h.turn (h.id - prev)).length)
      (pre ++ entryBytes h.turn (h.id - prev)) post
      (fun x hx => hturn x (List.mem_cons_of_mem _ hx)) hchain'
      (by rw [hbin, hebcons]; simp)
      (by simp)
      (by
        rw [hebcons] at hspace
        rw [List.length_append] at hspace
        push_cast at hspace ⊢
        omega)]
    dsimp only []
    rw [hebcons, List.length_append]
    rw [Nat.add_assoc]

theorem readCardsLoop_ok (B : List Nat) (tot : Int) :
    ∀ (cs : List CardEntry) (fuel prev idx : Nat) (pre post : List Nat),
      (∀ c ∈ cs, 1 ≤ c.count) →
      List.Chain' (fun a b => a ≤ b) (prev :: cs.map fun c => c.id) →
      B = pre ++ entriesBytes (cs.map fun c => (c.count, c.id)) prev ++ post →
      idx = pre.length →
      ((idx : Int) +
        ((entriesBytes (cs.map fun c => (c.count, c.id)) prev).length : Int) = tot) →
      cs.length ≤ fuel →
      Decoder.readCardsLoop B tot fuel prev idx =
        .ok (cs, idx + (entriesBytes (cs.map fun c => (c.count, c.id)) prev).length) := by
  intro cs
  induction cs with
  | nil =>
    intro fuel prev idx pre post _ _ _ _ htot _
    rw [Decoder.readCardsLoop.eq_def]
    dsimp only []
    rw [if_neg (by
      simp only [entriesBytes, List.length_nil] at htot
      push_cast at htot
      omega)]
    simp [entriesBytes]
  | cons cd rest ih =>
    intro fuel prev idx pre post hcount hchain hbin hidx htot hfuel
    obtain ⟨hple0, hchain'⟩ := List.chain'_cons.mp hchain
    have hple : prev ≤ cd.id := hple0
    have hebcons : entriesBytes ((cd :: rest).map fun x => (x.count, x.id)) prev =
        entryBytes cd.count (cd.id - prev) ++
          entriesBytes (rest.map fun x => (x.count, x.id)) cd.id := rfl
    subst hidx
    obtain ⟨f, rfl⟩ : ∃ f, fuel = f + 1 := ⟨fuel - 1, by simp at hfuel; omega⟩
    have hbin1 : B = pre ++ entryBytes cd.count (cd.id - prev) ++
        (entriesBytes (rest.map fun x => (x.count, x.id)) cd.id ++ post) := by
      rw [hbin, hebcons]
      simp
    have hblen : (pre.length : Int) +
        ((entryBytes cd.count (cd.id - prev)).length : Int) ≤ (B.length : Int) + 1 := by
      have : B.length = pre.length +
          ((entryBytes cd.count (cd.id - prev)).length +
            ((entriesBytes (rest.map fun x => (x.count, x.id)) cd.id).length +
              post.length)) := by
        rw [hbin1]
        simp
      push_cast [this]
      omega
    have hread := readSerializedCard_ok B (B.length : Int) cd.count (cd.id - prev)
      prev pre (entriesBytes (rest.map fun x => (x.count, x.id)) cd.id ++ post)
      (hcount cd (List.mem_cons_self _ _)) hbin1 hblen
    have hid : prev + (cd.id - prev) = cd.id := by omega
    rw [hid] at hread
    have hpos : 1 ≤ (entryBytes cd.count (cd.id - prev)).length :=
      entryBytes_length_pos _ _
    rw [Decoder.readCardsLoop.eq_def]
    dsimp only []
    rw [if_pos (by
      rw [hebcons, List.length_append] at htot
      push_cast at htot ⊢
      omega)]
    rw [hread]
    dsimp only []
    rw [ih f cd.id (pre.length + (entryBytes cd.count (cd.id - prev)).length)
      (pre ++ entryBytes cd.count (cd.id - prev)) post
      (fun x hx => hcount x (List.mem_cons_of_mem _ hx)) hchain'
      (by rw [hbin, hebcons]; simp)
      (by simp)
      (by
        rw [hebcons, List.length_append] at htot
        push_cast at htot ⊢
        omega)
      (by simp at hfuel; omega)]
    dsimp only []
    rw [hebcons, List.length_append]
    rw [Nat.add_assoc]

theorem versionByte_linear (n : Nat) :
    (2 <<< 4) ||| Encoder.extractNBits n 3 =
      n % 8 + (if 8 ≤ n then 8 else 0) + 32 := by
  have he3 : Encoder.extractNBits n 3 < 16 := by
    have := extractNBits_lt n 3
    norm_num at this
    exact this
  have h : (2 <<< 4) ||| Encoder.extractNBits n 3 =
      Encoder.extractNBits n 3 + 2 * 2 ^ 4 := by
    rw [Nat.lor_comm]
    exact lor_shiftLeft_eq_add (a := Encoder.extractNBits n 3) 2 4 (by omega)
  rw [h]
  have he := extractNBits_eq_add n 3
  norm_num at he
  rw [he]
  norm_num

theorem versionByte_bounds (n : Nat) :
    32 ≤ (2 <<< 4) ||| Encoder.extractNBits n 3 ∧
      (2 <<< 4) ||| Encoder.extractNBits n 3 < 48 := by
  rw [versionByte_linear]
  have := Nat.mod_lt n (show 0 < 8 by norm_num)
  constructor
  · omega
  · split <;> omega

theorem versionByte_low (n : Nat) :
    ((2 <<< 4) ||| Encoder.extractNBits n 3) &&& (2 ^ 3 - 1) = n % 2 ^ 3 := by
  have hmod := Nat.and_pow_two_sub_one_eq_mod
    ((2 <<< 4) ||| Encoder.extractNBits n 3) 3
  rw [hmod, versionByte_linear]
  norm_num
  split <;> omega

theorem versionByte_flag (n : Nat) :
    (((2 <<< 4) ||| Encoder.extractNBits n 3) &&& 2 ^ 3 ≠ 0) ↔ (2 ^ 3 ≤ n) := by
  rw [and_two_pow_div, versionByte_linear]
  norm_num
  by_cases h8 : 8 ≤ n
  · rw [if_pos h8]
    constructor
    · intro _; exact h8
    · intro _; omega
  · rw [if_neg h8]
    constructor
    · intro h; exfalso; omega
    · intro h; omega

theorem versionByte_shr4 (n : Nat) :
    ((2 <<< 4) ||| Encoder.extractNBits n 3) >>> 4 = 2 := by
  rw [shr4_eq, versionByte_linear]
  have := Nat.mod_lt n (show 0 < 8 by norm_num)
  split <;> omega

theorem entriesBytes_lt :
    ∀ (pairs : List (Nat × Nat)) (prev : Nat), ∀ x ∈ entriesBytes pairs prev,
      x < 256 := by
  intro pairs
  induction pairs with
  | nil => intro prev x hx; cases hx
  | cons p rest ih =>
    intro prev x hx
    obtain ⟨c, id⟩ := p
    have hcons : entriesBytes ((c, id) :: rest) prev =
        entryBytes c (id - prev) ++ entriesBytes rest id := rfl
    rw [hcons] at hx
    rcases List.mem_append.mp hx with h | h
    · exact entryBytes_lt _ _ x h
    · exact ih id x h

theorem entriesBytes_length_ge :
    ∀ (pairs : List (Nat × Nat)) (prev : Nat),
      pairs.length ≤ (entriesBytes pairs prev).length := by
  intro pairs
  induction pairs with
  | nil => intro prev; simp [entriesBytes]
  | cons p rest ih =>
    intro prev
    obtain ⟨c, id⟩ := p
    have hcons : entriesBytes ((c, id) :: rest) prev =
        entryBytes c (id - prev) ++ entriesBytes rest id := rfl
    rw [hcons]
    have h1 := entryBytes_length_pos c (id - prev)
    have h2 := ih id
    simp only [List.length_cons, List.length_append]
    omega

theorem decodeBinary_encoded (nm : List Char) (H : List HeroEntry)
    (C : List CardEntry) (x y z nmB : List Nat) (vB cs : Nat)
    (hx : x = chunks7 (H.length >>> 3))
    (hy : y = entriesBytes (H.map fun h => (h.turn, h.id)) 0)
    (hz : z = entriesBytes (C.map fun cd => (cd.count, cd.id)) 0)
    (hnmB : nmB = nm.map fun c => c.toNat)
    (hvB : vB = (2 <<< 4) ||| Encoder.extractNBits H.length 3)
    (hcs : cs = (x ++ (y ++ z)).sum &&& 255)
    (hascii : ∀ c ∈ nm, c.toNat < 128)
    (htags : reSubTags nm = nm)
    (hHturn : ∀ h ∈ H, 1 ≤ h.turn)
    (hchainH : List.Chain' (fun a b => a ≤ b) (0 :: H.map fun h => h.id))
    (hCcount : ∀ c ∈ C, 1 ≤ c.count)
    (hchainC : List.Chain' (fun a b => a ≤ b) (0 :: C.map fun c => c.id)) :
    Decoder.decodeBinary
      (vB :: cs :: nm.length :: (x ++ (y ++ (z ++ nmB)))) =
      .ok ⟨⟨nm⟩, H, C⟩ := by
  have hnmBlen : nmB.length = nm.length := by rw [hnmB]; simp
  have hv2 : vB >>> 4 = 2 := by rw [hvB]; exact versionByte_shr4 H.length
  have hgv : Decoder.getVersionAndHeroes
      (vB :: cs :: nm.length :: (x ++ (y ++ (z ++ nmB)))) = .ok (vB, 2) := by
    have h := getVersionAndHeroes_of
      (vB :: cs :: nm.length :: (x ++ (y ++ (z ++ nmB)))) vB rfl (Or.inr hv2)
    rw [hv2] at h
    exact h
  have hgl : Decoder.getLengthsAndChecksum
      (vB :: cs :: nm.length :: (x ++ (y ++ (z ++ nmB)))) 2 =
      .ok (nm.length, 3, ((3 + (x.length + (y.length + z.length)) : Nat) : Int)) := by
    unfold Decoder.getLengthsAndChecksum
    rw [pyGet_of_get? (show (vB :: cs :: nm.length ::
      (x ++ (y ++ (z ++ nmB)))).get? 2 = some nm.length from rfl)]
    dsimp only []
    rw [pyGet_of_get? (show (vB :: cs :: nm.length ::
      (x ++ (y ++ (z ++ nmB)))).get? 1 = some cs from rfl)]
    dsimp only []
    have hA : (if (2 : Nat) = 1 then (0 : Nat) else nm.length) = nm.length :=
      if_neg (by decide)
    have hB2 : (if (2 : Nat) = 1 then (2 : Nat) else 3) = 3 := if_neg (by decide)
    rw [hA, hB2]
    have hassoc : x ++ (y ++ (z ++ nmB)) = (x ++ (y ++ z)) ++ nmB := by simp
    rw [hassoc]
    have hslice := pySlice_header vB cs nm.length (x ++ (y ++ z)) nmB
      (((vB :: cs :: nm.length :: ((x ++ (y ++ z)) ++ nmB)).length : Int) -
        (nm.length : Int))
      (by simp [hnmBlen]; push_cast; ring)
    rw [hslice]
    rw [if_neg (not_not_intro (by rw [hcs]))]
    have htoteq : ((vB :: cs :: nm.length ::
        ((x ++ (y ++ z)) ++ nmB)).length : Int) - (nm.length : Int) =
        ((3 + (x.length + (y.length + z.length)) : Nat) : Int) := by
      simp [hnmBlen]
      push_cast
      ring
    rw [htoteq]
  unfold Decoder.decodeBinary
  rw [hgv]
  dsimp only []
  rw [hgl]
  dsimp only []
  unfold Decoder.parseDeck
  have hrv := readVarEncoded_ok
    (vB :: cs :: nm.length :: (x ++ (y ++ (z ++ nmB))))
    [vB, cs, nm.length] (y ++ (z ++ nmB))
    ((3 + (x.length + (y.length + z.length)) : Nat) : Int)
    vB 3 H.length 3
    (by rw [hvB]; exact versionByte_low H.length)
    (by rw [hvB]; exact versionByte_flag H.length)
    (fun h => by omega)
    (by rw [← hx]; simp)
    (by simp)
    (Or.inr (by
      rw [← hx]
      push_cast
      omega))
  rw [← hx] at hrv
  rw [hrv]
  dsimp only []
  have hhl := readHeroesLoop_ok
    (vB :: cs :: nm.length :: (x ++ (y ++ (z ++ nmB))))
    ((3 + (x.length + (y.length + z.length)) : Nat) : Int)
    H 0 (3 + x.length) ([vB, cs, nm.length] ++ x) (z ++ nmB)
    hHturn hchainH
    (by rw [← hy]; simp)
    (by simp; omega)
    (by
      rw [← hy]
      push_cast
      omega)
  rw [← hy] at hhl
  rw [hhl]
  dsimp only []
  have hcl := readCardsLoop_ok
    (vB :: cs :: nm.length :: (x ++ (y ++ (z ++ nmB))))
    ((3 + (x.length + (y.length + z.length)) : Nat) : Int)
    C ((vB :: cs :: nm.length :: (x ++ (y ++ (z ++ nmB)))).length + 1)
    0 (3 + x.length + y.length) (([vB, cs, nm.length] ++ x) ++ y) nmB
    hCcount hchainC
    (by rw [← hz]; simp)
    (by simp; omega)
    (by
      rw [← hz]
      push_cast
      omega)
    (by
      have h1 := entriesBytes_length_ge (C.map fun cd => (cd.count, cd.id)) 0
      rw [← hz] at h1
      simp only [List.length_map] at h1
      simp
      omega)
  rw [← hz] at hcl
  rw [hcl]
  dsimp only []
  by_cases hnm0 : nm.length = 0
  · rw [if_neg (not_not_intro hnm0)]
    dsimp only []
    have hnmnil : nm = [] := List.length_eq_zero.mp hnm0
    rw [hnmnil]
  · rw [if_pos hnm0]
    have htake : pyTakeLast
        (vB :: cs :: nm.length :: (x ++ (y ++ (z ++ nmB)))) nm.length = nmB := by
      unfold pyTakeLast
      have hfront : vB :: cs :: nm.length :: (x ++ (y ++ (z ++ nmB))) =
          (vB :: cs :: nm.length :: (x ++ (y ++ z))) ++ nmB := by simp
      rw [hfront]
      have hlen2 : ((vB :: cs :: nm.length :: (x ++ (y ++ z))) ++ nmB).length -
          nm.length = (vB :: cs :: nm.length :: (x ++ (y ++ z))).length := by
        simp [hnmBlen]
        omega
      rw [hlen2, List.drop_left]
    rw [htake, hnmB, bytesDecodeUtf8_ascii nm hascii]
    have hmapre : (Except.ok nm : Except PyErr (List Char)).map reSubTags =
        .ok nm := by
      have hstep : (Except.ok nm : Except PyErr (List Char)).map reSubTags =
          .ok (reSubTags nm) := rfl
      rw [hstep, htags]
    rw [hmapre]

/-- **C1 counterexample**: the claim quantifies over decks whose ids are
arbitrary unsigned integers, but `_add_card` raises
`DeckEncodeException` ("Something went horribly wrong") whenever one
entry serializes to more than 11 bytes: with card id `2^100` (name
empty, count 1 — all the claim's side conditions hold) `encode_deck`
fails outright, so `decode_deck_string(encode_deck(contents, 2))`
returns no `DeckContents` at all. -/
theorem claim1_counterexample :
    encodeDeck ⟨"", [], [⟨2 ^ 100, 1⟩]⟩ 2 =
      .error (.deckEncodeException "Something went horribly wrong") := by
  decide

/-- **C1 amended**: the round trip does hold once ids, turns and counts
are bounded by `2^32` (any bound keeping every entry within the 11-byte
ceiling works) and the name is ASCII: for such a `DeckContents` with
name ≤ 63 characters, no HTML-like tags, turns ≥ 1 and counts ≥ 1,
`encode_deck` at version 2 succeeds and `decode_deck_string` of the
result returns the deck with its hero and card lists sorted by id — a
permutation of the original lists, hence equal as sets of entries. -/
theorem claim1_amended (dc : DeckContents)
    (hname_len : dc.name.length ≤ 63)
    (hname_ascii : ∀ c ∈ dc.name.data, c.toNat < 128)
    (hname_tags : pyStripTags dc.name = dc.name)
    (hheroes : ∀ h ∈ dc.heroes, 1 ≤ h.turn ∧ h.turn < 2 ^ 32 ∧ h.id < 2 ^ 32)
    (hcards : ∀ c ∈ dc.cards, 1 ≤ c.count ∧ c.count < 2 ^ 32 ∧ c.id < 2 ^ 32) :
    ∃ s, encodeDeck dc 2 = .ok s ∧
      decodeDeckString s = .ok
        ⟨dc.name, List.insertionSort (fun a b => a.id ≤ b.id) dc.heroes,
          List.insertionSort (fun a b => a.id ≤ b.id) dc.cards⟩ ∧
      List.Perm (List.insertionSort (fun a b => a.id ≤ b.id) dc.heroes)
        dc.heroes ∧
      List.Perm (List.insertionSort (fun a b => a.id ≤ b.id) dc.cards)
        dc.cards := by
  have htags : reSubTags dc.name.data = dc.name.data :=
    congrArg String.data hname_tags
  have hnmlen : dc.name.data.length ≤ 63 := hname_len
  obtain ⟨H, hH⟩ : ∃ H, List.insertionSort (fun a b => a.id ≤ b.id) dc.heroes = H :=
    ⟨_, rfl⟩
  obtain ⟨C, hC⟩ : ∃ C, List.insertionSort (fun a b => a.id ≤ b.id) dc.cards = C :=
    ⟨_, rfl⟩
  rw [hH, hC]
  have hpermH : List.Perm H dc.heroes := by
    rw [← hH]
    exact List.perm_insertionSort _ _
  have hpermC : List.Perm C dc.cards := by
    rw [← hC]
    exact List.perm_insertionSort _ _
  have hH3 : ∀ h ∈ H, 1 ≤ h.turn ∧ h.turn < 2 ^ 32 ∧ h.id < 2 ^ 32 :=
    fun h hh => hheroes h (hpermH.mem_iff.mp hh)
  have hC3 : ∀ c ∈ C, 1 ≤ c.count ∧ c.count < 2 ^ 32 ∧ c.id < 2 ^ 32 :=
    fun c hc => hcards c (hpermC.mem_iff.mp hc)
  have hsortH : List.Sorted (fun a b => a.id ≤ b.id) H := by
    rw [← hH]
    haveI : IsTotal HeroEntry (fun a b => a.id ≤ b.id) :=
      ⟨fun a b => Nat.le_total a.id b.id⟩
    haveI : IsTrans HeroEntry (fun a b => a.id ≤ b.id) :=
      ⟨fun a b c h1 h2 => Nat.le_trans h1 h2⟩
    exact List.sorted_insertionSort _ _
  have hsortC : List.Sorted (fun a b => a.id ≤ b.id) C := by
    rw [← hC]
    haveI : IsTotal CardEntry (fun a b => a.id ≤ b.id) :=
      ⟨fun a b => Nat.le_total a.id b.id⟩
    haveI : IsTrans CardEntry (fun a b => a.id ≤ b.id) :=
      ⟨fun a b c h1 h2 => Nat.le_trans h1 h2⟩
    exact List.sorted_insertionSort _ _
  have hchainH : List.Chain' (fun a b => a ≤ b) (0 :: H.map fun h => h.id) := by
    refine List.chain'_cons'.mpr ⟨fun y _ => Nat.zero_le y, ?_⟩
    exact (List.pairwise_map.mpr hsortH).chain'
  have hchainC : List.Chain' (fun a b => a ≤ b) (0 :: C.map fun c => c.id) := by
    refine List.chain'_cons'.mpr ⟨fun y _ => Nat.zero_le y, ?_⟩
    exact (List.pairwise_map.mpr hsortC).chain'
  have hench := encodeBinary_eq dc H C
    (chunks7 (H.length >>> 3) ++
      (entriesBytes (H.map fun h => (h.turn, h.id)) 0 ++
        entriesBytes (C.map fun cd => (cd.count, cd.id)) 0))
    hH hC rfl hnmlen htags hname_ascii
    (fun h hh => ⟨(hH3 h hh).2.1, (hH3 h hh).2.2⟩)
    (fun c hc => ⟨(hC3 c hc).2.1, (hC3 c hc).2.2⟩)
  refine ⟨Encoder.deckStringOfBinary
    ((((2 <<< 4) ||| Encoder.extractNBits H.length 3) ::
      ((chunks7 (H.length >>> 3) ++
        (entriesBytes (H.map fun h => (h.turn, h.id)) 0 ++
          entriesBytes (C.map fun cd => (cd.count, cd.id)) 0)).sum &&& 255) ::
      dc.name.data.length ::
      (chunks7 (H.length >>> 3) ++
        (entriesBytes (H.map fun h => (h.turn, h.id)) 0 ++
          entriesBytes (C.map fun cd => (cd.count, cd.id)) 0))) ++
      (dc.name.data.map fun c => c.toNat)), ?_, ?_, hpermH, hpermC⟩
  · unfold encodeDeck
    rw [hench]
    rfl
  · have hbytes : ∀ b ∈ ((2 <<< 4) ||| Encoder.extractNBits H.length 3) ::
        ((chunks7 (H.length >>> 3) ++
          (entriesBytes (H.map fun h => (h.turn, h.id)) 0 ++
            entriesBytes (C.map fun cd => (cd.count, cd.id)) 0)).sum &&& 255) ::
        dc.name.data.length ::
        (chunks7 (H.length >>> 3) ++
          (entriesBytes (H.map fun h => (h.turn, h.id)) 0 ++
            (entriesBytes (C.map fun cd => (cd.count, cd.id)) 0 ++
              (dc.name.data.map fun c => c.toNat)))), b < 256 := by
      intro b hb
      rcases List.mem_cons.mp hb with rfl | hb
      · have := (versionByte_bounds H.length).2
        omega
      rcases List.mem_cons.mp hb with rfl | hb
      · rw [and255_eq]
        exact Nat.mod_lt _ (by norm_num)
      rcases List.mem_cons.mp hb with rfl | hb
      · omega
      rcases List.mem_append.mp hb with hb | hb
      · exact chunks7_lt _ _ hb
      rcases List.mem_append.mp hb with hb | hb
      · exact entriesBytes_lt _ _ _ hb
      rcases List.mem_append.mp hb with hb | hb
      · exact entriesBytes_lt _ _ _ hb
      · obtain ⟨c, hc, rfl⟩ := List.mem_map.mp hb
        have := hname_ascii c hc
        omega
    have hds := decodeString_deckStringOfBinary
      ((2 <<< 4) ||| Encoder.extractNBits H.length 3)
      (((chunks7 (H.length >>> 3) ++
          (entriesBytes (H.map fun h => (h.turn, h.id)) 0 ++
            entriesBytes (C.map fun cd => (cd.count, cd.id)) 0)).sum &&& 255) ::
        dc.name.data.length ::
        (chunks7 (H.length >>> 3) ++
          (entriesBytes (H.map fun h => (h.turn, h.id)) 0 ++
            (entriesBytes (C.map fun cd => (cd.count, cd.id)) 0 ++
              (dc.name.data.map fun c => c.toNat)))))
      hbytes (by have := (versionByte_bounds H.length).1; omega)
      (versionByte_bounds H.length).2
    have hconsform : ((((2 <<< 4) ||| Encoder.extractNBits H.length 3) ::
        ((chunks7 (H.length >>> 3) ++
          (entriesBytes (H.map fun h => (h.turn, h.id)) 0 ++
            entriesBytes (C.map fun cd => (cd.count, cd.id)) 0)).sum &&& 255) ::
        dc.name.data.length ::
        (chunks7 (H.length >>> 3) ++
          (entriesBytes (H.map fun h => (h.turn, h.id)) 0 ++
            entriesBytes (C.map fun cd => (cd.count, cd.id)) 0))) ++
        (dc.name.data.map fun c => c.toNat)) =
        ((2 <<< 4) ||| Encoder.extractNBits H.length 3) ::
        ((chunks7 (H.length >>> 3) ++
          (entriesBytes (H.map fun h => (h.turn, h.id)) 0 ++
            entriesBytes (C.map fun cd => (cd.count, cd.id)) 0)).sum &&& 255) ::
        dc.name.data.length ::
        (chunks7 (H.length >>> 3) ++
          (entriesBytes (H.map fun h => (h.turn, h.id)) 0 ++
            (entriesBytes (C.map fun cd => (cd.count, cd.id)) 0 ++
              (dc.name.data.map fun c => c.toNat)))) := by
      simp
    unfold decodeDeckString
    rw [hconsform]
    rw [hds]
    dsimp only []
    have hdb := decodeBinary_encoded dc.name.data H C
      (chunks7 (H.length >>> 3))
      (entriesBytes (H.map fun h => (h.turn, h.id)) 0)
      (entriesBytes (C.map fun cd => (cd.count, cd.id)) 0)
      (dc.name.data.map fun c => c.toNat)
      ((2 <<< 4) ||| Encoder.extractNBits H.length 3)
      ((chunks7 (H.length >>> 3) ++
        (entriesBytes (H.map fun h => (h.turn, h.id)) 0 ++
          entriesBytes (C.map fun cd => (cd.count, cd.id)) 0)).sum &&& 255)
      rfl rfl rfl rfl rfl rfl
      hname_ascii htags
      (fun h hh => (hH3 h hh).1) hchainH
      (fun c hc => (hC3 c hc).1) hchainC
    exact hdb

/-- Witness for C1 amended at the deck `{name := "A", heroes := [(10, turn 1)],
cards := [(20, count 2)]}`. -/
theorem claim1_witness :
    ∃ s, encodeDeck ⟨"A", [⟨10, 1⟩], [⟨20, 2⟩]⟩ 2 = .ok s ∧
      decodeDeckString s = .ok
        ⟨"A", List.insertionSort (fun a b => a.id ≤ b.id) [⟨10, 1⟩],
          List.insertionSort (fun a b => a.id ≤ b.id) [⟨20, 2⟩]⟩ ∧
      List.Perm (List.insertionSort (fun a b => a.id ≤ b.id) [⟨10, 1⟩])
        [(⟨10, 1⟩ : HeroEntry)] ∧
      List.Perm (List.insertionSort (fun a b => a.id ≤ b.id) [⟨20, 2⟩])
        [(⟨20, 2⟩ : CardEntry)] :=
  claim1_amended ⟨"A", [⟨10, 1⟩], [⟨20, 2⟩]⟩ (by decide) (by decide) (by decide)
    (by decide) (by decide)
